import Mathlib

/-!
Shallow embedding of the GraphFusionAI task-orchestration core
(`graphfusionai/task/` and `graphfusionai/task_manager/task_graph.py`),
with theorems checking the behavioural claims of the specification.

Conventions used throughout the embedding:
* Python dicts that preserve insertion order are modelled as association
  lists (`List (String × α)`), with `dict_get` / `dict_set` mimicking
  `d[k]` / `d[k] = v` (overwrite keeps the original position).
* Python floats that only ever hold exact small arithmetic are modelled
  as `ℚ` (`Rat`).
* Code that can raise is modelled with `Except String`; the error string
  names the Python exception.
* External collaborators (agents' internals, MemoryManager,
  KnowledgeGraph, LLM providers) are out of scope per the spec; their
  calls are modelled as oracles/parameters or as recorded log entries.
-/

namespace GraphFusionAI

/-- Lookup in an insertion-ordered dict modelled as an association list
(Python `d.get(k)` / `d[k]`). -/
def dict_get (l : List (String × α)) (k : String) : Option α :=
  (l.find? (fun p => p.1 == k)).map (fun p => p.2)

/-- Assignment `d[k] = v` on an insertion-ordered dict: overwrite in place
if the key exists, otherwise append. -/
def dict_set (l : List (String × α)) (k : String) (v : α) : List (String × α) :=
  if l.any (fun p => p.1 == k) then
    l.map (fun p => if p.1 == k then (k, v) else p)
  else
    l ++ [(k, v)]

/-! ## Task (graphfusionai/task/task.py) -/

/-- The `TaskStatus` enum of `task.py`. -/
inductive TaskStatus : Type where
  | pending
  | in_progress
  | completed
  | failed
  | blocked
  | skipped
deriving DecidableEq, Repr

/-! ## TaskQueue (graphfusionai/task/task_queue.py)

The queue stores entries `(-task.priority, task.id)` in a
`queue.PriorityQueue` (a binary min-heap).  The heap is modelled as the
multiset of entries it currently holds, as a list; `put` appends and
`get` removes a minimal entry in the lexicographic order on
`(Int × String)` — exactly the order `PriorityQueue` pops.  The queue's
`_tasks` dict holds the task objects; for the queue the relevant task
fields are id, priority, status and dependencies. -/

/-- The slice of a `Task` object that `TaskQueue` reads. -/
structure QTask : Type where
  id : String
  priority : Int
  status : TaskStatus
  dependencies : List String
deriving DecidableEq, Repr

/-- Lexicographic comparison of char lists by code point, as Python
compares strings. -/
def chars_lt : List Char → List Char → Bool
  | [], [] => false
  | [], _ :: _ => true
  | _ :: _, [] => false
  | a :: as, b :: bs =>
    if a.toNat < b.toNat then true
    else if b.toNat < a.toNat then false
    else chars_lt as bs

/-- Python's `<` on strings: lexicographic by code point. -/
def str_lt (a b : String) : Bool := chars_lt a.toList b.toList

/-- Heap-entry order: lexicographic on `(-priority, id)` pairs, the
order in which `queue.PriorityQueue` delivers tuples. -/
def entry_le (a b : Int × String) : Bool :=
  a.1 < b.1 || (a.1 == b.1 && (str_lt a.2 b.2 || a.2 == b.2))

/-- Minimal entry of the heap (what `PriorityQueue.get` will deliver). -/
def find_min : List (Int × String) → Option (Int × String)
  | [] => none
  | e :: es =>
    match find_min es with
    | none => some e
    | some m => if entry_le e m then some e else some m

structure TaskQueue : Type where
  heap : List (Int × String)
  tasks : List (String × QTask)
  completed : List String
  total_enqueued : Nat
  total_dequeued : Nat
deriving DecidableEq, Repr

/-- Fresh `TaskQueue()`. -/
def TaskQueue.empty : TaskQueue :=
  { heap := [], tasks := [], completed := [], total_enqueued := 0, total_dequeued := 0 }

/-- The `add` method: `put((-priority, id))`, store the task, bump stats. -/
def TaskQueue.add (q : TaskQueue) (t : QTask) : TaskQueue :=
  { q with
    heap := q.heap ++ [(-t.priority, t.id)]
    tasks := dict_set q.tasks t.id t
    total_enqueued := q.total_enqueued + 1 }

theorem find_min_mem {l : List (Int × String)} {e : Int × String}
    (h : find_min l = some e) : e ∈ l := by
  induction l with
  | nil => simp [find_min] at h
  | cons x xs ih =>
    simp only [find_min] at h
    cases hxs : find_min xs with
    | none => rw [hxs] at h; simp at h; simp [h]
    | some m =>
      rw [hxs] at h
      by_cases hle : entry_le x m
      · simp [hle] at h; simp [h]
      · simp [hle] at h
        exact List.mem_cons_of_mem x (ih (hxs.trans (congrArg some h)))

theorem erase_length_lt {l : List (Int × String)} {e : Int × String}
    (h : find_min l = some e) : (l.erase e).length < l.length := by
  have hmem := find_min_mem h
  rw [List.length_erase_of_mem hmem]
  exact Nat.sub_lt (List.length_pos.mpr (List.ne_nil_of_mem hmem)) Nat.one_pos

/-- Loop body of the `get` method: pop entries until one whose task has
status `PENDING` is found; popped entries are not re-inserted.  A popped
id missing from the task dict would be a Python `KeyError`.  The `fuel`
argument only bounds the recursion; every caller passes at least the
heap size, and each iteration removes one heap entry, so the `0` case is
reached only with an empty heap. -/
def get_aux (tasks : List (String × QTask)) :
    Nat → List (Int × String) → Except String (Option (QTask × List (Int × String)))
  | 0, _ => .ok none
  | fuel + 1, heap =>
    match find_min heap with
    | none => .ok none
    | some e =>
      match dict_get tasks e.2 with
      | none => .error "KeyError"
      | some t =>
        if t.status = TaskStatus.pending then
          .ok (some (t, heap.erase e))
        else
          get_aux tasks fuel (heap.erase e)

/-- The `get` method of `TaskQueue`. -/
def TaskQueue.get (q : TaskQueue) : Except String (Option QTask × TaskQueue) :=
  match get_aux q.tasks q.heap.length q.heap with
  | .error e => .error e
  | .ok none => .ok (none, { q with heap := [] })
  | .ok (some (t, rest)) =>
      .ok (some t, { q with heap := rest, total_dequeued := q.total_dequeued + 1 })

/-! ## TaskScheduler (graphfusionai/task/task_scheduler.py)

The scheduler reads only `agent.id`, `agent.skills` and (via `getattr`)
`agent.resources` from an agent; `agents` is the dict of available
agents, iterated in insertion order (modelled as a list).  Python sets
built with `set(...)` are modelled by `List.dedup`; float scores by `ℚ`.
`ZeroDivisionError` (division by `len(required_skills)` when the task
declares no required skills) is modelled by `Except.error`. -/

/-- The slice of an agent that `TaskScheduler` reads. -/
structure Agent : Type where
  id : String
  skills : List String
  resources : List (String × Int)
deriving DecidableEq, Repr

/-- The slice of a `Task` that `TaskScheduler` reads. -/
structure STask : Type where
  id : String
  required_skills : List String
  resources : List (String × Int)
deriving DecidableEq, Repr

structure TaskScheduler : Type where
  assignments : List (String × List String)
  performance_history : List (String × List ℚ)
deriving DecidableEq, Repr

/-- Fresh `TaskScheduler()`. -/
def TaskScheduler.empty : TaskScheduler := ⟨[], []⟩

/-- The `_is_agent_busy` method: busyness is read from the scheduler's
own `assignments` map only. -/
def is_agent_busy (st : TaskScheduler) (a : Agent) : Bool :=
  match dict_get st.assignments a.id with
  | some l => decide (0 < l.length)
  | none => false

/-- The `_get_agent_performance` method: mean of the recorded history,
default `0.5` for an unseen (or empty-history) agent. -/
def get_agent_performance (st : TaskScheduler) (agent_id : String) : ℚ :=
  match dict_get st.performance_history agent_id with
  | none => 1/2
  | some h => if h.isEmpty then 1/2 else h.sum / h.length

/-- The `_check_resource_availability` method. -/
def check_resource_availability (a : Agent) (required : List (String × Int)) : ℚ :=
  if required.isEmpty then 1
  else if a.resources.isEmpty then 0
  else
    let matched := (required.filter (fun p =>
      match dict_get a.resources p.1 with
      | some v => decide (p.2 ≤ v)
      | none => false)).length
    (matched : ℚ) / required.length

/-- Superset filter of `_calculate_agent_score`:
`required_skills.issubset(agent_skills)` on the dedup'd sets. -/
def skills_superset (required_skills agent_skills : List String) : Bool :=
  required_skills.dedup.all (fun s => agent_skills.dedup.contains s)

/-- The `_calculate_agent_score` method.  After the superset filter
passes, the code divides by `len(required_skills)` with no emptiness
check, so an empty required-skill set raises `ZeroDivisionError`. -/
def calculate_agent_score (st : TaskScheduler) (a : Agent)
    (required_skills : List String) (required_resources : List (String × Int)) :
    Except String ℚ :=
  let req := required_skills.dedup
  let ag := a.skills.dedup
  if ¬ skills_superset required_skills a.skills then .ok 0
  else if req.length = 0 then .error "ZeroDivisionError"
  else
    let skill_match : ℚ := ((req.filter (fun s => ag.contains s)).length : ℚ) / req.length
    let skill_score := (4/10 : ℚ) * skill_match
    let performance_score := (3/10 : ℚ) * get_agent_performance st a.id
    let current_load := ((dict_get st.assignments a.id).getD []).length
    let load_score := (2/10 : ℚ) * (1 - (current_load : ℚ) / 5)
    let resource_score := (1/10 : ℚ) * check_resource_availability a required_resources
    .ok (skill_score + performance_score + load_score + resource_score)

/-- The qualification loop of `assign_agent`: non-busy agents are scored
and kept when their score is positive; a raised `ZeroDivisionError`
propagates out of the loop. -/
def qualify (st : TaskScheduler) (task : STask) :
    List Agent → Except String (List (ℚ × Agent))
  | [] => .ok []
  | a :: rest =>
    if is_agent_busy st a then qualify st task rest
    else
      match calculate_agent_score st a task.required_skills task.resources with
      | .error e => .error e
      | .ok score =>
        match qualify st task rest with
        | .error e => .error e
        | .ok qs => .ok (if 0 < score then (score, a) :: qs else qs)

/-- Python's `max(..., key=lambda x: x[0])`: the first element with the
maximal key wins. -/
def py_max : List (ℚ × Agent) → Option (ℚ × Agent)
  | [] => none
  | x :: xs => some (xs.foldl (fun acc y => if acc.1 < y.1 then y else acc) x)

/-- The `_assign_task` method: record the assignment. -/
def assign_task (st : TaskScheduler) (agent_id task_id : String) : TaskScheduler :=
  let prev := (dict_get st.assignments agent_id).getD []
  { st with assignments := dict_set st.assignments agent_id (prev ++ [task_id]) }

/-- The `assign_agent` method. -/
def assign_agent (st : TaskScheduler) (task : STask) (agents : List Agent) :
    Except String (Option Agent × TaskScheduler) :=
  match qualify st task agents with
  | .error e => .error e
  | .ok qs =>
    match py_max qs with
    | none => .ok (none, st)
    | some best => .ok (some best.2, assign_task st best.2.id task.id)

/-- The `complete_task` method: drop the assignment and append the
outcome to the agent's rolling history, trimmed to the last 10. -/
def TaskScheduler.complete_task (st : TaskScheduler)
    (agent_id task_id : String) (success : Bool) : TaskScheduler :=
  let asg :=
    match dict_get st.assignments agent_id with
    | none => st.assignments
    | some l => dict_set st.assignments agent_id (l.erase task_id)
  let hist := ((dict_get st.performance_history agent_id).getD [])
      ++ [if success then (1 : ℚ) else 0]
  let hist := if 10 < hist.length then hist.drop (hist.length - 10) else hist
  { assignments := asg, performance_history := dict_set st.performance_history agent_id hist }

/-! ## TaskExecutor (graphfusionai/task/task_executor.py)

`execute_task` iterates the task's steps in order.  `_execute_step`
dispatches to a type-keyed handler and reports `success := false` with
the exception string when the handler raises; the handlers call external
collaborators (agent, memory, knowledge graph, LLM provider), so step
outcomes are modelled by an oracle `outcomes : Nat → Except String String`
giving, per step index, the handler's output or its raised error. -/

/-- A step dict as read by the executor: the `type` tag used for handler
dispatch, and the `fail_fast` flag that step dicts of this repository
carry (see `examples/08_advanced_task_patterns.py`) but that
`TaskExecutor.execute_task` never reads. -/
structure EStep : Type where
  type : String
  fail_fast : Bool
deriving DecidableEq, Repr

/-- The step-result record built by `_execute_step`. -/
structure StepResult : Type where
  step_type : String
  success : Bool
  error : Option String
deriving DecidableEq, Repr

/-- The execution-result record built by `execute_task`. -/
structure ExecResult : Type where
  status : TaskStatus
  steps_completed : Nat
  output : List StepResult
  error : Option String
deriving DecidableEq, Repr

/-- Python `f"{x}"` on an optional string (`None` prints as "None"). -/
def py_str_opt : Option String → String
  | none => "None"
  | some s => s

/-- The `_execute_step` method under the step-outcome oracle. -/
def execute_step (outcomes : Nat → Except String String) (i : Nat) (s : EStep) :
    StepResult :=
  match outcomes i with
  | .ok _ => { step_type := s.type, success := true, error := none }
  | .error e => { step_type := s.type, success := false, error := some e }

/-- The step loop of `execute_task`: each executed step is appended to
`output` and counted in `steps_completed` before the success check; any
unsuccessful step raises, which aborts the remaining steps and marks the
task FAILED with the formatted message. -/
def exec_loop (outcomes : Nat → Except String String) :
    Nat → List EStep → Nat → List StepResult → ExecResult
  | _, [], completed, out =>
      { status := .completed, steps_completed := completed, output := out, error := none }
  | i, s :: rest, completed, out =>
    let sr := execute_step outcomes i s
    let out := out ++ [sr]
    let completed := completed + 1
    if sr.success then
      exec_loop outcomes (i + 1) rest completed out
    else
      { status := .failed, steps_completed := completed, output := out,
        error := some ("Step " ++ toString completed ++ " failed: " ++ py_str_opt sr.error) }

/-- The `execute_task` method (status/outputs part; timestamps and
duration metrics are not modelled). -/
def execute_task (outcomes : Nat → Except String String) (steps : List EStep) :
    ExecResult :=
  exec_loop outcomes 0 steps 0 []

/-! ### The `_handle_llm_step` retry loop

`provider attempt` models `provider.generate(...)` on the given attempt
index: `.error e` is a raised exception, `.ok text` a response whose
text is `text`.  A response with empty stripped text raises
`LLMError("Empty response from LLM")` inside the `try`, so it follows
the same path as a provider failure.  The memory log entries written by
the loop are recorded as `(entry type, attempt number)` pairs, and the
cumulative `time.sleep` duration is accumulated (the code sleeps
`retry_delay * (attempt + 1)` after every failed non-final attempt).
`max_retries` and `retry_delay` come from the step dict with defaults 3
and 1. -/

/-- Memory log entries `(type, attempt)` written by `_handle_llm_step`. -/
abbrev LlmLog := List (String × Nat)

/-- Whitespace as stripped by Python's `str.strip()` (ASCII whitespace;
the unicode cases are irrelevant to the modelled responses). -/
def is_space (c : Char) : Bool :=
  c == ' ' || c == '\t' || c == '\n' || c == '\r'

/-- Python's `not text.strip()`: the text strips to the empty string,
i.e. every character is whitespace. -/
def py_strip_empty (s : String) : Bool := s.toList.all is_space

/-- The retry loop of `_handle_llm_step`; `remaining` counts the loop
iterations left out of `max_retries`, `attempt` is the 0-based Python
loop variable. -/
def llm_go (provider : Nat → Except String String) (retry_delay : ℚ) (max_retries : Nat) :
    Nat → Nat → Option String → LlmLog → ℚ → Except String String × LlmLog × ℚ
  | _, 0, last_error, log, slept =>
      (.error ("LLM task failed after " ++ toString max_retries
        ++ " attempts. Last error: " ++ py_str_opt last_error), log, slept)
  | attempt, remaining + 1, _, log, slept =>
    let res : Except String String :=
      match provider attempt with
      | .error e => .error e
      | .ok text =>
        if py_strip_empty text then .error "Empty response from LLM" else .ok text
    match res with
    | .ok text => (.ok text, log ++ [("llm_response", attempt + 1)], slept)
    | .error e =>
      if attempt < max_retries - 1 then
        llm_go provider retry_delay max_retries (attempt + 1) remaining (some e)
          (log ++ [("llm_error", attempt + 1)]) (slept + retry_delay * ((attempt : ℚ) + 1))
      else
        llm_go provider retry_delay max_retries (attempt + 1) remaining (some e) log slept

/-- The `_handle_llm_step` method: result, memory log and total slept
backoff time. -/
def handle_llm_step (provider : Nat → Except String String)
    (max_retries : Nat) (retry_delay : ℚ) :
    Except String String × LlmLog × ℚ :=
  llm_go provider retry_delay max_retries 0 max_retries none [] 0

/-! ## TaskGraph (graphfusionai/task_manager/task_graph.py)

A `networkx.DiGraph` over task names: node attributes hold the priority
string, `add_edge` implicitly creates missing endpoint nodes (with no
priority attribute), and duplicate edges are stored once.
`get_execution_order` first checks acyclicity and raises
`ValueError("Cycle detected in task dependencies!")` on a cyclic graph,
otherwise returns a topological order; both are modelled by one Kahn
elimination (the topological order networkx picks among the valid ones
is not inspected by any claim). -/

structure TaskGraph : Type where
  nodes : List (String × Option String)
  edges : List (String × String)
deriving DecidableEq, Repr

/-- Fresh `TaskGraph()`. -/
def TaskGraph.empty : TaskGraph := ⟨[], []⟩

/-- The `nx.add_node` call: insert, or update attributes in place. -/
def add_node (g : TaskGraph) (name : String) (priority : Option String) : TaskGraph :=
  match priority with
  | some p => { g with nodes := dict_set g.nodes name (some p) }
  | none =>
    if g.nodes.any (fun n => n.1 == name) then g
    else { g with nodes := g.nodes ++ [(name, none)] }

/-- The `nx.add_edge` call: creates missing endpoints, stores the edge once. -/
def add_edge (g : TaskGraph) (a b : String) : TaskGraph :=
  let g := add_node g a none
  let g := add_node g b none
  if g.edges.contains (a, b) then g else { g with edges := g.edges ++ [(a, b)] }

/-- The `TaskGraph.add_task` method: add the node with its priority
attribute, then an edge `dep → task_name` per declared dependency; no
cycle check of any kind.  Returns the task name like the Python. -/
def TaskGraph.add_task (g : TaskGraph) (task_name : String) (priority : String)
    (dependencies : List String) : TaskGraph × String :=
  let g := add_node g task_name (some priority)
  let g := dependencies.foldl (fun g dep => add_edge g dep task_name) g
  (g, task_name)

/-- One Kahn pick: the first remaining node with no incoming edge from a
remaining node. -/
def kahn_step (edges : List (String × String)) (remaining : List String) :
    Option String :=
  remaining.find? (fun n => ¬ edges.any (fun e => e.2 == n && remaining.contains e.1))

/-- Kahn elimination; `none` means a cycle is present. -/
def kahn (edges : List (String × String)) :
    Nat → List String → Option (List String)
  | 0, remaining => if remaining.isEmpty then some [] else none
  | fuel + 1, remaining =>
    if remaining.isEmpty then some []
    else
      match kahn_step edges remaining with
      | none => none
      | some n => (kahn edges fuel (remaining.erase n)).map (fun l => n :: l)

/-- The `get_execution_order` method: `ValueError` on a cyclic graph,
otherwise a topological order. -/
def TaskGraph.get_execution_order (g : TaskGraph) : Except String (List String) :=
  match kahn g.edges g.nodes.length (g.nodes.map (fun n => n.1)) with
  | none => .error "Cycle detected in task dependencies!"
  | some order => .ok order

/-- Reachability along directed edges (nonempty paths). -/
inductive Reach (E : List (String × String)) : String → String → Prop
  | base (a b : String) : (a, b) ∈ E → Reach E a b
  | step (a b c : String) : (a, b) ∈ E → Reach E b c → Reach E a c

/-- A directed cycle exists. -/
def HasCycle (E : List (String × String)) : Prop := ∃ x, Reach E x x

/-! ## TaskManager (graphfusionai/task/task_manager.py)

The manager owns `self.tasks` (an insertion-ordered dict of mutable
`Task` objects), `self.task_graph` (an `nx.DiGraph` whose edge
`dep → task` is added per declared dependency at `add_task` time) and a
`TaskQueue` that `execute_tasks` only ever writes (readiness always goes
through `get_ready_tasks`), so only the queue's heap is mirrored here.

The fields of a `Task` that the manager reads are modelled in `MTask`;
`alternate_task` is a nested task definition (`Task.from_dict` restores
id, dependencies, status, strategy and priority from the stored dict),
hence the recursive type.  `execute_tasks` consults the scheduler and
executor per processed task; both are external to the manager loop and
are modelled by the per-step oracle `Decision` (`no_agent` = scheduler
returned `None`; otherwise the executor's terminal status).  Calls to
the memory / knowledge-graph collaborators and the metrics bookkeeping
are outside every claim and not modelled; the `trace` field instruments
which task ids the loop body processed, in order. -/

/-- The slice of a `Task` object that `TaskManager` reads, with the
nested alternate-task definition. -/
inductive MTask : Type where
  | mk (id : String) (dependencies : List String) (status : TaskStatus)
      (failure_strategy : String) (priority : Int) (alternate_task : Option MTask)

def MTask.id : MTask → String
  | .mk i _ _ _ _ _ => i

def MTask.dependencies : MTask → List String
  | .mk _ d _ _ _ _ => d

def MTask.status : MTask → TaskStatus
  | .mk _ _ s _ _ _ => s

def MTask.failure_strategy : MTask → String
  | .mk _ _ _ f _ _ => f

def MTask.priority : MTask → Int
  | .mk _ _ _ _ p _ => p

def MTask.alternate_task : MTask → Option MTask
  | .mk _ _ _ _ _ a => a

/-- Status mutation (`task.start/complete/fail/skip/reset` touch only
fields outside this model except `status`). -/
def MTask.with_status : MTask → TaskStatus → MTask
  | .mk i d _ f p a, s => .mk i d s f p a

/-- The `remove_dependency` method: drop the id if present. -/
def MTask.erase_dep : MTask → String → MTask
  | .mk i d s f p a, dep => .mk i (d.erase dep) s f p a

/-- The `is_ready` method of `Task`: dependency list empty. -/
def MTask.is_ready (t : MTask) : Bool := t.dependencies.isEmpty

structure MState : Type where
  tasks : List MTask
  edges : List (String × String)
  queue_heap : List (Int × String)
  trace : List String
  completed_res : List String
  failed_res : List String
  skipped_res : List String
  k : Nat

/-- Fresh `TaskManager()` (plus empty instrumentation). -/
def MState.empty : MState :=
  { tasks := [], edges := [], queue_heap := [], trace := [],
    completed_res := [], failed_res := [], skipped_res := [], k := 0 }

/-- Lookup `self.tasks[tid]`. -/
def find_task (s : MState) (tid : String) : Option MTask :=
  s.tasks.find? (fun t => t.id == tid)

def set_status (s : MState) (tid : String) (st : TaskStatus) : MState :=
  { s with tasks := s.tasks.map (fun t => if t.id == tid then t.with_status st else t) }

def remove_dep (s : MState) (tid dep : String) : MState :=
  { s with tasks := s.tasks.map (fun t => if t.id == tid then t.erase_dep dep else t) }

/-- Duplicate-free edge insertion of `nx.add_edge`. -/
def add_edge_m (edges : List (String × String)) (e : String × String) :
    List (String × String) :=
  if edges.contains e then edges else edges ++ [e]

/-- The `TaskManager.add_task` method: store the task (dict overwrite
keeps the original position), add an edge `dep → task` per declared
dependency, and enqueue when the task is ready. -/
def tm_add_task (s : MState) (t : MTask) : MState :=
  let tasks :=
    if s.tasks.any (fun u => u.id == t.id) then
      s.tasks.map (fun u => if u.id == t.id then t else u)
    else s.tasks ++ [t]
  let edges := t.dependencies.foldl (fun es dep => add_edge_m es (dep, t.id)) s.edges
  let qh := if t.is_ready then s.queue_heap ++ [(-t.priority, t.id)] else s.queue_heap
  { s with tasks := tasks, edges := edges, queue_heap := qh }

/-- The `_check_dependencies_met` method: every dependency id is a known
task with status COMPLETED. -/
def deps_met (s : MState) (t : MTask) : Bool :=
  t.dependencies.all (fun d =>
    match find_task s d with
    | none => false
    | some dt => dt.status == TaskStatus.completed)

/-- Readiness as `get_ready_tasks` checks it. -/
def ready_task (s : MState) (t : MTask) : Bool :=
  t.status == TaskStatus.pending && deps_met s t

def ready_id (s : MState) (tid : String) : Bool :=
  match find_task s tid with
  | some t => ready_task s t
  | none => false

/-- The collection loop of `get_ready_tasks`; mirrors the Python
truthiness of `if limit and len(ready_tasks) >= limit` (a limit of 0
means unbounded). -/
def get_ready_aux (s : MState) (limit : Nat) :
    List MTask → List MTask → List MTask
  | [], acc => acc
  | t :: rest, acc =>
    if ready_task s t then
      let acc := acc ++ [t]
      if limit ≠ 0 && limit ≤ acc.length then acc
      else get_ready_aux s limit rest acc
    else get_ready_aux s limit rest acc

def get_ready_tasks (s : MState) (limit : Nat) : List MTask :=
  get_ready_aux s limit s.tasks []

/-- Successors of a node in the dependency graph, in edge insertion
order (as `nx.DiGraph.successors` yields them). -/
def successors (s : MState) (tid : String) : List String :=
  (s.edges.filter (fun e => e.1 == tid)).map (fun e => e.2)

/-- Outcome of one loop-body iteration of `execute_tasks`, as decided by
the external scheduler and executor. -/
inductive Decision : Type where
  | no_agent
  | exec_completed
  | exec_failed
deriving DecidableEq, Repr

/-- The `_handle_completion` method (collaborator notifications and
metrics omitted): mark COMPLETED, record, then for every graph successor
drop this id from its dependency list and enqueue it once ready.
`self.tasks[successor]` cannot miss (edge targets are always registered
tasks), so the missing case is a no-op here. -/
def handle_completion (s : MState) (tid : String) : MState :=
  let s := set_status s tid TaskStatus.completed
  let s := { s with completed_res := s.completed_res ++ [tid] }
  (successors s tid).foldl (fun s u =>
    let s := remove_dep s u tid
    match find_task s u with
    | some ut =>
      if ut.is_ready then { s with queue_heap := s.queue_heap ++ [(-ut.priority, u)] }
      else s
    | none => s) s

/-- The `_handle_failure` method (collaborator notifications and metrics
omitted): mark FAILED, record, then branch on the strategy string.
`skip_dependent` skips only the direct graph successors. -/
def handle_failure (s : MState) (t : MTask) : MState :=
  let s := set_status s t.id TaskStatus.failed
  let s := { s with failed_res := s.failed_res ++ [t.id] }
  if t.failure_strategy == "retry" then
    let s := set_status s t.id TaskStatus.pending
    { s with queue_heap := s.queue_heap ++ [(-t.priority, t.id)] }
  else if t.failure_strategy == "skip_dependent" then
    (successors s t.id).foldl (fun s u =>
      let s := set_status s u TaskStatus.skipped
      { s with skipped_res := s.skipped_res ++ [u] }) s
  else if t.failure_strategy == "alternate" then
    match t.alternate_task with
    | some alt => tm_add_task s alt
    | none => s
  else s

/-- One iteration of the `for task in ready_tasks` loop body of
`execute_tasks` on the task with id `tid` (always present in actual
runs: tasks are never removed from `self.tasks`). -/
def process_task (oracle : Nat → Decision) (s : MState) (tid : String) : MState :=
  let d := oracle s.k
  let s := { s with trace := s.trace ++ [tid], k := s.k + 1 }
  match find_task s tid with
  | none => s
  | some t =>
    match d with
    | .no_agent =>
      let s := set_status s tid TaskStatus.skipped
      { s with skipped_res := s.skipped_res ++ [tid] }
    | .exec_completed => handle_completion s tid
    | .exec_failed => handle_failure s t

/-- The inner `for` loop of `execute_tasks` over one tick's ready set. -/
def process_list (oracle : Nat → Decision) (s : MState) (R : List String) : MState :=
  R.foldl (process_task oracle) s

/-- The `while True` loop of `execute_tasks`, fuel-bounded: each tick
recomputes the ready set (capped at `max_parallel`) and processes it;
the loop exits when no task is ready. -/
def run_loop (oracle : Nat → Decision) (max_parallel : Nat) :
    Nat → MState → MState
  | 0, s => s
  | fuel + 1, s =>
    let R := (get_ready_tasks s max_parallel).map MTask.id
    if R.isEmpty then s
    else run_loop oracle max_parallel fuel (process_list oracle s R)

/-! ### Invariants of reachable TaskManager states

States produced by registering tasks with uuid-fresh ids and running
`execute_tasks` satisfy the following soundness conditions, used to
settle the failure-cascade claim. -/

/-- The chain of alternate-task definitions nested under a task (each
`alternate_task` dict may itself contain the next). -/
def MTask.alt_defs : MTask → List MTask
  | .mk _ _ _ _ _ none => []
  | .mk _ _ _ _ _ (some a) => a :: a.alt_defs

/-- Whether a dependency id currently counts as satisfied: it names a
registered task whose status is COMPLETED. -/
def completed_dep (s : MState) (x : String) : Bool :=
  match find_task s x with
  | some a => a.status == TaskStatus.completed
  | none => false

/-- Every graph edge points at a registered task (edges are only ever
inserted with the freshly registered task as target). -/
def edge_targets_ok (s : MState) : Bool :=
  s.edges.all (fun e => (find_task s e.2).isSome)

/-- Every edge source is still listed in its target's dependency list,
or is a completed task (dependencies are only removed when the
dependency completes). -/
def edge_deps_ok (s : MState) : Bool :=
  s.edges.all (fun e =>
    match find_task s e.2 with
    | none => true
    | some t => t.dependencies.contains e.1 || completed_dep s e.1)

/-- Graph predecessors of a COMPLETED or FAILED task are completed
tasks (a task only runs once every dependency completed). -/
def preds_completed_ok (s : MState) : Bool :=
  s.edges.all (fun e =>
    match find_task s e.2 with
    | none => true
    | some t =>
      !(t.status == TaskStatus.completed || t.status == TaskStatus.failed)
        || completed_dep s e.1)

/-- Alternate definitions not yet registered carry status PENDING (the
status a task definition authored for later registration holds). -/
def alts_pending_ok (s : MState) : Bool :=
  s.tasks.all (fun t =>
    t.status == TaskStatus.failed
      || t.alt_defs.all (fun a => a.status == TaskStatus.pending))

/-- All ids in play: every task id together with the ids of its not-yet
consumed alternate chain (a chain is consumed — registered — only when
its owner FAILED with the alternate strategy, so chains of FAILED owners
are no longer counted). -/
def w_ids (s : MState) : List String :=
  s.tasks.flatMap (fun t =>
    t.id :: (if t.status == TaskStatus.failed then [] else t.alt_defs.map MTask.id))

/-- Invariant of reachable manager states: graph soundness plus
uuid-freshness of all ids in play. -/
def Inv (s : MState) : Prop :=
  edge_targets_ok s = true ∧
  edge_deps_ok s = true ∧
  preds_completed_ok s = true ∧
  alts_pending_ok s = true ∧
  (w_ids s).Nodup

/-- The task is terminally out of the running: FAILED or SKIPPED. -/
def halted (s : MState) (f : String) : Bool :=
  match find_task s f with
  | some t => t.status == TaskStatus.failed || t.status == TaskStatus.skipped
  | none => false

/-! ### Concrete scenarios evaluated by the claim theorems -/

/-- Manager state after registering two mutually dependent tasks. -/
def cyc_state : MState :=
  tm_add_task (tm_add_task MState.empty
    (MTask.mk "a" ["b"] TaskStatus.pending "skip_dependent" 0 none))
    (MTask.mk "b" ["a"] TaskStatus.pending "skip_dependent" 0 none)

/-- The standalone TaskGraph after `add_task("A", dependencies=["B"])`
followed by `add_task("B", dependencies=["A"])`. -/
def cyc_graph : TaskGraph :=
  ((TaskGraph.empty.add_task "A" "medium" ["B"]).1.add_task "B" "medium" ["A"]).1

/-- Manager state holding the chain a ← b ← c (b depends on a, c on b),
every task with `failure_strategy = "skip_dependent"`. -/
def chain_state : MState :=
  tm_add_task (tm_add_task (tm_add_task MState.empty
    (MTask.mk "a" [] TaskStatus.pending "skip_dependent" 0 none))
    (MTask.mk "b" ["a"] TaskStatus.pending "skip_dependent" 0 none))
    (MTask.mk "c" ["b"] TaskStatus.pending "skip_dependent" 0 none)

/-- Full run of `chain_state` in which every dispatched execution fails. -/
def chain_run : MState := run_loop (fun _ => Decision.exec_failed) 10 5 chain_state

/-- Queue holding a higher-priority COMPLETED task ahead of a PENDING
task that still has a dependency. -/
def wq : TaskQueue :=
  (TaskQueue.empty.add ⟨"c1", 9, TaskStatus.completed, []⟩).add
    ⟨"p1", 1, TaskStatus.pending, ["d"]⟩

/-- The queue state `wq.get` leaves behind: the COMPLETED entry was
popped and discarded, the returned PENDING entry removed. -/
def wq_after : TaskQueue :=
  { heap := [],
    tasks := [("c1", ⟨"c1", 9, TaskStatus.completed, []⟩),
              ("p1", ⟨"p1", 1, TaskStatus.pending, ["d"]⟩)],
    completed := [], total_enqueued := 2, total_dequeued := 1 }

/-! ## Theorems for the claims -/

/-- C1 counterexample: registering two mutually dependent tasks through
`TaskManager.add_task` is not rejected — there is no `CycleDetected`
error path at all — both tasks are stored and the dependency graph ends
up cyclic, refuting the claim that a cycle-creating add fails and that
no sequence of `add_task` calls yields a cyclic graph. -/
theorem c1_counterexample_add_task_creates_cycle :
    cyc_state.edges = [("b", "a"), ("a", "b")] ∧
    HasCycle cyc_state.edges ∧
    cyc_state.tasks.length = 2 := by
  refine ⟨rfl, ⟨"a", Reach.step "a" "b" "a" (by decide) (Reach.base "b" "a" (by decide))⟩, rfl⟩

/-- C1 amended: neither `add_task` performs any cycle check — adding
mutually dependent tasks succeeds and stores the cyclic edges — and the
cycle is only detected later, when `TaskGraph.get_execution_order`
raises `ValueError("Cycle detected in task dependencies!")` on the
cyclic graph. -/
theorem c1_amended_cycle_detected_only_at_execution_order :
    (TaskGraph.empty.add_task "A" "medium" ["B"]).2 = "A" ∧
    cyc_graph.edges = [("B", "A"), ("A", "B")] ∧
    HasCycle cyc_graph.edges ∧
    cyc_graph.get_execution_order = .error "Cycle detected in task dependencies!" := by
  refine ⟨rfl, rfl, ⟨"A", Reach.step "A" "B" "A" (by decide) (Reach.base "B" "A" (by decide))⟩, rfl⟩

/-- C3 counterexample: a 2-step task whose first step fails without
setting `fail_fast`; `execute_task` aborts at once — the task is FAILED
with only one step executed — instead of continuing with the remaining
step as the claim states. -/
theorem c3_counterexample_failure_aborts_without_fail_fast :
    (execute_task (fun i => if i == 0 then .error "boom" else .ok "x")
        [⟨"custom", false⟩, ⟨"custom", false⟩]).status = TaskStatus.failed ∧
    (execute_task (fun i => if i == 0 then .error "boom" else .ok "x")
        [⟨"custom", false⟩, ⟨"custom", false⟩]).output.length = 1 ∧
    (execute_task (fun i => if i == 0 then .error "boom" else .ok "x")
        [⟨"custom", false⟩, ⟨"custom", false⟩]).error
      = some "Step 1 failed: boom" := by
  exact ⟨rfl, rfl, rfl⟩

/-- C4 counterexample: 3-step task, `fail_fast := true` on step 2,
step 2 fails: the task is FAILED and step 3 never runs, but
`steps_completed` is 2 (the counter is incremented for the failing step
before the success check), not 1 as the claim states. -/
theorem c4_counterexample_steps_completed_is_two :
    (execute_task (fun i => if i == 1 then .error "boom" else .ok "x")
        [⟨"custom", false⟩, ⟨"custom", true⟩, ⟨"custom", false⟩]).steps_completed = 2 ∧
    ¬ (execute_task (fun i => if i == 1 then .error "boom" else .ok "x")
        [⟨"custom", false⟩, ⟨"custom", true⟩, ⟨"custom", false⟩]).steps_completed = 1 := by
  exact ⟨rfl, by decide⟩

/-- C5: at a task whose `required_skills` is empty (the constructor
default) with a single idle skilled agent in the pool, the scheduler
does not treat the skill-match term as 1.0 and return normally: the
skill-match computation divides by `len(required_skills) = 0` and the
call raises `ZeroDivisionError`. -/
theorem c5_empty_required_skills_raises_zero_division :
    assign_agent TaskScheduler.empty ⟨"t1", [], []⟩ [⟨"a1", ["python"], []⟩]
      = .error "ZeroDivisionError" := rfl

/-- C6 counterexample: a queue holding a single PENDING task whose
dependency set is nonempty; `get()` returns that task anyway — readiness
is never consulted — refuting the claim that `next()` returns only tasks
with an empty dependency set. -/
theorem c6_counterexample_returns_task_with_dependencies :
    (TaskQueue.empty.add ⟨"t1", 0, .pending, ["d0"]⟩).get
      = .ok (some ⟨"t1", 0, .pending, ["d0"]⟩,
          { heap := [], tasks := [("t1", ⟨"t1", 0, .pending, ["d0"]⟩)],
            completed := [], total_enqueued := 1, total_dequeued := 1 }) ∧
    (["d0"] : List String) ≠ [] := by
  exact ⟨rfl, by decide⟩

/-- C7 counterexample: two dependency-free PENDING tasks with equal
priority, the one with id "b" added first; `get()` dequeues the task
with id "a" (added second) first, because ties are broken by the task-id
string in the heap entry, not by insertion order. -/
theorem c7_counterexample_tie_not_fifo :
    ((TaskQueue.empty.add ⟨"b", 5, .pending, []⟩).add ⟨"a", 5, .pending, []⟩).get
      = .ok (some ⟨"a", 5, .pending, []⟩,
          { heap := [(-5, "b")],
            tasks := [("b", ⟨"b", 5, .pending, []⟩), ("a", ⟨"a", 5, .pending, []⟩)],
            completed := [], total_enqueued := 2, total_dequeued := 1 }) := by
  rfl

/-- C2 counterexample: chain a ← b ← c (c depends on b, b depends on a),
all with `failure_strategy = "skip_dependent"`; a fails on its first
execution.  Only the direct successor b is marked SKIPPED: the
transitive descendant c stays PENDING forever (and is never scheduled —
the full run processes only a), refuting the claim that every transitive
descendant reaches Skipped. -/
theorem c2_counterexample_transitive_descendant_not_skipped :
    Reach chain_state.edges "a" "c" ∧
    (find_task chain_run "b").map MTask.status = some TaskStatus.skipped ∧
    (find_task chain_run "c").map MTask.status = some TaskStatus.pending ∧
    chain_run.trace = ["a"] := by
  refine ⟨Reach.step "a" "b" "c" (by decide) (Reach.base "b" "c" (by decide)), rfl, rfl, rfl⟩

theorem execute_step_success (outcomes : Nat → Except String String) (i : Nat) (s : EStep) :
    (execute_step outcomes i s).success = (outcomes i).isOk := by
  unfold execute_step
  cases outcomes i <;> rfl

theorem exec_loop_first_fail (outcomes : Nat → Except String String) :
    ∀ (steps : List EStep) (k i completed : Nat) (out : List StepResult),
    k < steps.length →
    (∀ j, j < k → (outcomes (i + j)).isOk = true) →
    (outcomes (i + k)).isOk = false →
    (exec_loop outcomes i steps completed out).status = TaskStatus.failed ∧
    (exec_loop outcomes i steps completed out).steps_completed = completed + k + 1 ∧
    (exec_loop outcomes i steps completed out).output.length = out.length + k + 1 := by
  intro steps
  induction steps with
  | nil => intro k i completed out hk; simp at hk
  | cons s rest ih =>
    intro k i completed out hk hok herr
    match k with
    | 0 =>
      have hs : (execute_step outcomes i s).success = false := by
        rw [execute_step_success]
        simpa using herr
      simp [exec_loop, hs]
    | k' + 1 =>
      have hs : (execute_step outcomes i s).success = true := by
        rw [execute_step_success]
        have := hok 0 (Nat.succ_pos k')
        simpa using this
      simp only [exec_loop, hs, if_true]
      have hok' : ∀ j, j < k' → (outcomes (i + 1 + j)).isOk = true := by
        intro j hj
        have := hok (j + 1) (Nat.succ_lt_succ hj)
        rwa [show i + (j + 1) = i + 1 + j by omega] at this
      have herr' : (outcomes (i + 1 + k')).isOk = false := by
        rwa [show i + (k' + 1) = i + 1 + k' by omega] at herr
      have hk' : k' < rest.length := by simpa using Nat.lt_of_succ_lt_succ hk
      obtain ⟨h1, h2, h3⟩ := ih k' (i + 1) (completed + 1) (out ++ [execute_step outcomes i s]) hk' hok' herr'
      simp only [List.length_append, List.length_cons, List.length_nil] at h3
      refine ⟨h1, by omega, by omega⟩

/-- C3 amended: in `execute_task`, the first failing step always aborts
the remaining steps and fails the task, regardless of whether any step
sets `fail_fast` (the executor never reads that flag): with successful
outcomes before step index `k` and a failing outcome at `k`, exactly
`k + 1` steps are executed and the task is FAILED. -/
theorem c3_amended_any_failure_aborts (outcomes : Nat → Except String String)
    (steps : List EStep) (k : Nat)
    (hk : k < steps.length)
    (hok : ∀ j, j < k → (outcomes j).isOk = true)
    (herr : (outcomes k).isOk = false) :
    (execute_task outcomes steps).status = TaskStatus.failed ∧
    (execute_task outcomes steps).steps_completed = k + 1 ∧
    (execute_task outcomes steps).output.length = k + 1 := by
  have := exec_loop_first_fail outcomes steps k 0 0 [] hk
    (by intro j hj; simpa using hok j hj) (by simpa using herr)
  simpa [execute_task] using this

theorem c3_amended_any_failure_aborts_witness :
    (execute_task (fun i => if i == 0 then .error "boom" else .ok "x")
        [⟨"custom", false⟩, ⟨"custom", false⟩]).status = TaskStatus.failed ∧
    (execute_task (fun i => if i == 0 then .error "boom" else .ok "x")
        [⟨"custom", false⟩, ⟨"custom", false⟩]).steps_completed = 0 + 1 ∧
    (execute_task (fun i => if i == 0 then .error "boom" else .ok "x")
        [⟨"custom", false⟩, ⟨"custom", false⟩]).output.length = 0 + 1 :=
  c3_amended_any_failure_aborts (fun i => if i == 0 then .error "boom" else .ok "x")
    [⟨"custom", false⟩, ⟨"custom", false⟩] 0 (by decide)
    (by intro j hj; omega) (by decide)

/-- C4 amended: for a 3-step task with `fail_fast := true` on step 2
whose step 1 succeeds and step 2 fails, `execute_task` reports the task
FAILED and step 3 is never executed, but `steps_completed` in the
execution result is `2`, not `1`: the counter is incremented for the
failing step before the success check. -/
theorem c4_amended_three_step_fail_fast (outcomes : Nat → Except String String)
    (s1 s2 s3 : EStep) (o0 e : String)
    (hff : s2.fail_fast = true)
    (h0 : outcomes 0 = .ok o0) (h1 : outcomes 1 = .error e) :
    (execute_task outcomes [s1, s2, s3]).status = TaskStatus.failed ∧
    (execute_task outcomes [s1, s2, s3]).steps_completed = 2 ∧
    (execute_task outcomes [s1, s2, s3]).output.length = 2 ∧
    (execute_task outcomes [s1, s2, s3]).error = some ("Step 2 failed: " ++ e) := by
  refine ⟨?_, ?_, ?_, ?_⟩ <;>
    simp [execute_task, exec_loop, execute_step, h0, h1, py_str_opt] <;> rfl

theorem c4_amended_three_step_fail_fast_witness :
    (execute_task (fun i => if i == 1 then .error "boom" else .ok "x")
        [⟨"custom", false⟩, ⟨"custom", true⟩, ⟨"custom", false⟩]).status = TaskStatus.failed ∧
    (execute_task (fun i => if i == 1 then .error "boom" else .ok "x")
        [⟨"custom", false⟩, ⟨"custom", true⟩, ⟨"custom", false⟩]).steps_completed = 2 ∧
    (execute_task (fun i => if i == 1 then .error "boom" else .ok "x")
        [⟨"custom", false⟩, ⟨"custom", true⟩, ⟨"custom", false⟩]).output.length = 2 ∧
    (execute_task (fun i => if i == 1 then .error "boom" else .ok "x")
        [⟨"custom", false⟩, ⟨"custom", true⟩, ⟨"custom", false⟩]).error
      = some ("Step 2 failed: " ++ "boom") :=
  c4_amended_three_step_fail_fast (fun i => if i == 1 then .error "boom" else .ok "x")
    ⟨"custom", false⟩ ⟨"custom", true⟩ ⟨"custom", false⟩ "x" "boom" rfl rfl rfl

theorem get_aux_pending_spec (tasks : List (String × QTask)) :
    ∀ (fuel : Nat) (heap : List (Int × String)) (t : QTask) (rest : List (Int × String)),
    get_aux tasks fuel heap = .ok (some (t, rest)) →
    t.status = TaskStatus.pending ∧ rest.length < heap.length ∧ rest.Subperm heap := by
  intro fuel
  induction fuel with
  | zero => intro heap t rest h; simp [get_aux] at h
  | succ fuel ih =>
    intro heap t rest h
    cases hfm : find_min heap with
    | none => simp [get_aux, hfm] at h
    | some e =>
      cases hget : dict_get tasks e.2 with
      | none => simp [get_aux, hfm, hget] at h
      | some t0 =>
        simp only [get_aux, hfm, hget] at h
        by_cases hp : t0.status = TaskStatus.pending
        · rw [if_pos hp] at h
          simp only [Except.ok.injEq, Option.some.injEq, Prod.mk.injEq] at h
          obtain ⟨ht, hrest⟩ := h
          subst ht
          subst hrest
          exact ⟨hp, erase_length_lt hfm, (List.erase_sublist e heap).subperm⟩
        · rw [if_neg hp] at h
          obtain ⟨ha, hb, hc⟩ := ih (heap.erase e) t rest h
          exact ⟨ha, lt_trans hb (erase_length_lt hfm),
            hc.trans (List.erase_sublist e heap).subperm⟩

/-- C6 amended: `get()` returns the first popped task (in heap order)
whose status is PENDING, with no constraint on its dependency set, and
every entry popped along the way that is not returned is permanently
discarded: the remaining heap is strictly smaller and is a sub-multiset
of the previous heap (nothing is ever re-inserted). -/
theorem c6_amended_get_returns_pending_and_discards
    (q : TaskQueue) (t : QTask) (q' : TaskQueue)
    (h : q.get = .ok (some t, q')) :
    t.status = TaskStatus.pending ∧
    q'.heap.length < q.heap.length ∧
    q'.heap.Subperm q.heap := by
  unfold TaskQueue.get at h
  cases hga : get_aux q.tasks q.heap.length q.heap with
  | error e => rw [hga] at h; simp at h
  | ok r =>
    rw [hga] at h
    match r with
    | none => simp at h
    | some (t0, rest) =>
      simp only [Except.ok.injEq, Prod.mk.injEq, Option.some.injEq] at h
      obtain ⟨ht, hq⟩ := h
      obtain ⟨h1, h2, h3⟩ := get_aux_pending_spec q.tasks q.heap.length q.heap t0 rest hga
      subst ht
      rw [← hq]
      exact ⟨h1, h2, h3⟩

theorem c6_amended_get_returns_pending_and_discards_witness :
    (⟨"p1", 1, TaskStatus.pending, ["d"]⟩ : QTask).status = TaskStatus.pending ∧
    (wq_after).heap.length < (wq).heap.length ∧
    (wq_after).heap.Subperm (wq).heap :=
  c6_amended_get_returns_pending_and_discards wq
    ⟨"p1", 1, TaskStatus.pending, ["d"]⟩ wq_after rfl

theorem pair_beq_false {x y : Int} {a b : String} (h : (a == b) = false) :
    (((x, a) : Int × String) == (y, b)) = false := by
  show (x == y && a == b) = false
  simp [h]

theorem pair_beq_self (x : Int) (a : String) :
    (((x, a) : Int × String) == (x, a)) = true := by
  show (x == x && a == a) = true
  simp

theorem chars_lt_irrefl : ∀ l : List Char, chars_lt l l = false := by
  intro l
  induction l with
  | nil => rfl
  | cons a as ih => simp [chars_lt, ih]

theorem chars_lt_asymm : ∀ l1 l2 : List Char,
    chars_lt l1 l2 = true → chars_lt l2 l1 = false := by
  intro l1
  induction l1 with
  | nil =>
    intro l2 h
    cases l2 with
    | nil => simp [chars_lt] at h
    | cons b bs => rfl
  | cons a as ih =>
    intro l2 h
    cases l2 with
    | nil => simp [chars_lt] at h
    | cons b bs =>
      simp only [chars_lt] at h ⊢
      by_cases h1 : a.toNat < b.toNat
      · have h2 : ¬ b.toNat < a.toNat := by omega
        simp [h1, h2]
      · by_cases h2 : b.toNat < a.toNat
        · simp [h1, h2] at h
        · simp only [h1, h2, if_false] at h ⊢
          exact ih bs h

theorem str_lt_asymm {a b : String} (h : str_lt a b = true) : str_lt b a = false :=
  chars_lt_asymm _ _ h

theorem str_lt_ne {a b : String} (h : str_lt a b = true) : a ≠ b := by
  intro he
  subst he
  rw [str_lt, chars_lt_irrefl] at h
  exact Bool.false_ne_true h

/-- C7 amended: two PENDING dependency-free tasks with equal priority
are dequeued in lexicographic order of their id strings — the heap entry
is `(-priority, task.id)` and ids are random UUIDs — so priority ties
are not broken by insertion order: here the task added second comes out
first whenever its id sorts lower. -/
theorem c7_amended_tie_broken_by_id (id1 id2 : String) (p : Int) (d1 d2 : List String)
    (h : str_lt id2 id1 = true) :
    ((TaskQueue.empty.add ⟨id1, p, TaskStatus.pending, d1⟩).add
        ⟨id2, p, TaskStatus.pending, d2⟩).get
      = .ok (some ⟨id2, p, TaskStatus.pending, d2⟩,
          { heap := [(-p, id1)],
            tasks := [(id1, ⟨id1, p, TaskStatus.pending, d1⟩),
                      (id2, ⟨id2, p, TaskStatus.pending, d2⟩)],
            completed := [], total_enqueued := 2, total_dequeued := 1 }) := by
  have hne : id2 ≠ id1 := str_lt_ne h
  have hne' : id1 ≠ id2 := fun he => hne he.symm
  have hbe : (id1 == id2) = false := beq_eq_false_iff_ne.mpr hne'
  have hbe2 : (id2 == id1) = false := beq_eq_false_iff_ne.mpr hne
  have hlt : str_lt id1 id2 = false := str_lt_asymm h
  have hpe : (((-p, id1) : Int × String) == (-p, id2)) = false := pair_beq_false hbe
  have hpe2 : (((-p, id2) : Int × String) == (-p, id2)) = true := pair_beq_self (-p) id2
  simp [TaskQueue.get, TaskQueue.add, TaskQueue.empty, get_aux, find_min, entry_le,
    dict_set, dict_get, List.erase, hbe, hbe2, hlt, hpe, hpe2, lt_irrefl]

theorem c7_amended_tie_broken_by_id_witness :
    ((TaskQueue.empty.add ⟨"b", 5, TaskStatus.pending, []⟩).add
        ⟨"a", 5, TaskStatus.pending, []⟩).get
      = .ok (some ⟨"a", 5, TaskStatus.pending, []⟩,
          { heap := [(-5, "b")],
            tasks := [("b", ⟨"b", 5, TaskStatus.pending, []⟩),
                      ("a", ⟨"a", 5, TaskStatus.pending, []⟩)],
            completed := [], total_enqueued := 2, total_dequeued := 1 }) :=
  c7_amended_tie_broken_by_id "b" "a" 5 [] [] rfl

/-- C8: for an llm step with `max_retries = 3` whose provider fails on
the first two attempts and returns a non-empty (after stripping)
response on the third, the step succeeds with that response, the memory
log records all three attempts (two `llm_error` entries, then the
`llm_response`), and the cumulative backoff slept is
`retry_delay·1 + retry_delay·2 ≥ retry_delay·(1+2)`; conversely, when
every attempt fails, the step fails carrying the last error in the
raised message. -/
theorem c8_llm_retry_backoff
    (provider provider2 : Nat → Except String String) (d d2 : ℚ)
    (e0 e1 t f0 f1 f2 : String)
    (h0 : provider 0 = .error e0) (h1 : provider 1 = .error e1)
    (h2 : provider 2 = .ok t) (ht : py_strip_empty t = false)
    (g0 : provider2 0 = .error f0) (g1 : provider2 1 = .error f1)
    (g2 : provider2 2 = .error f2) :
    (handle_llm_step provider 3 d).1 = .ok t ∧
    (handle_llm_step provider 3 d).2.1
      = [("llm_error", 1), ("llm_error", 2), ("llm_response", 3)] ∧
    (handle_llm_step provider 3 d).2.2 = d * 1 + d * 2 ∧
    d * (1 + 2) ≤ (handle_llm_step provider 3 d).2.2 ∧
    (handle_llm_step provider2 3 d2).1
      = .error ("LLM task failed after 3 attempts. Last error: " ++ f2) ∧
    (handle_llm_step provider2 3 d2).2.1 = [("llm_error", 1), ("llm_error", 2)] ∧
    (handle_llm_step provider2 3 d2).2.2 = d2 * 1 + d2 * 2 := by
  have hs : (handle_llm_step provider 3 d).2.2 = d * 1 + d * 2 := by
    simp only [handle_llm_step, llm_go, h0, h1, h2, ht]
    norm_num
  have hs2 : (handle_llm_step provider2 3 d2).2.2 = d2 * 1 + d2 * 2 := by
    simp only [handle_llm_step, llm_go, g0, g1, g2]
    norm_num
  refine ⟨?_, ?_, hs, ?_, ?_, ?_, hs2⟩
  · simp [handle_llm_step, llm_go, h0, h1, h2, ht]
  · simp [handle_llm_step, llm_go, h0, h1, h2, ht]
  · rw [hs]
    have : d * (1 + 2) = d * 1 + d * 2 := by ring
    exact this.le
  · simp only [handle_llm_step, llm_go, g0, g1, g2]
    norm_num [py_str_opt]
    rfl
  · simp [handle_llm_step, llm_go, g0, g1, g2]

theorem c8_llm_retry_backoff_witness :
    ((handle_llm_step (fun i => if i < 2 then .error ("e" ++ toString i) else .ok "hi") 3 1).1
      = .ok "hi" ∧
    (handle_llm_step (fun i => if i < 2 then .error ("e" ++ toString i) else .ok "hi") 3 1).2.1
      = [("llm_error", 1), ("llm_error", 2), ("llm_response", 3)] ∧
    (handle_llm_step (fun i => if i < 2 then .error ("e" ++ toString i) else .ok "hi") 3 1).2.2
      = 1 * 1 + 1 * 2 ∧
    (1 : ℚ) * (1 + 2) ≤
      (handle_llm_step (fun i => if i < 2 then .error ("e" ++ toString i) else .ok "hi") 3 1).2.2 ∧
    (handle_llm_step (fun _ => .error "boom") 3 1).1
      = .error ("LLM task failed after 3 attempts. Last error: " ++ "boom") ∧
    (handle_llm_step (fun _ => .error "boom") 3 1).2.1
      = [("llm_error", 1), ("llm_error", 2)] ∧
    (handle_llm_step (fun _ => .error "boom") 3 1).2.2 = 1 * 1 + 1 * 2) :=
  c8_llm_retry_backoff
    (fun i => if i < 2 then .error ("e" ++ toString i) else .ok "hi")
    (fun _ => .error "boom") 1 1 ("e" ++ toString 0) ("e" ++ toString 1) "hi"
    "boom" "boom" "boom" rfl rfl rfl (by decide) rfl rfl rfl

theorem qualify_not_busy (st : TaskScheduler) (task : STask) :
    ∀ (agents : List Agent) (qs : List (ℚ × Agent)),
    qualify st task agents = .ok qs →
    ∀ q ∈ qs, is_agent_busy st q.2 = false := by
  intro agents
  induction agents with
  | nil =>
    intro qs h q hq
    simp only [qualify, Except.ok.injEq] at h
    subst h
    simp at hq
  | cons a rest ih =>
    intro qs h q hq
    by_cases hb : is_agent_busy st a
    · rw [qualify, if_pos hb] at h
      exact ih qs h q hq
    · rw [qualify, if_neg hb] at h
      cases hc : calculate_agent_score st a task.required_skills task.resources with
      | error e => rw [hc] at h; exact absurd h (by simp)
      | ok score =>
        rw [hc] at h
        cases hr : qualify st task rest with
        | error e => rw [hr] at h; exact absurd h (by simp)
        | ok qs' =>
          rw [hr] at h
          simp only [Except.ok.injEq] at h
          subst h
          by_cases hsc : 0 < score
          · rw [if_pos hsc] at hq
            rcases List.mem_cons.mp hq with hq1 | hq2
            · subst hq1
              simpa using hb
            · exact ih qs' hr q hq2
          · rw [if_neg hsc] at hq
            exact ih qs' hr q hq

theorem foldl_pick_mem :
    ∀ (xs : List (ℚ × Agent)) (acc : ℚ × Agent),
    xs.foldl (fun acc y => if acc.1 < y.1 then y else acc) acc ∈ acc :: xs := by
  intro xs
  induction xs with
  | nil => intro acc; simp
  | cons y ys ih =>
    intro acc
    have := ih (if acc.1 < y.1 then y else acc)
    rcases List.mem_cons.mp this with h1 | h2
    · rw [List.foldl_cons, h1]
      by_cases hlt : acc.1 < y.1
      · simp [hlt]
      · simp [hlt]
    · rw [List.foldl_cons]
      exact List.mem_cons_of_mem acc (List.mem_cons_of_mem y h2)

theorem py_max_mem {qs : List (ℚ × Agent)} {m : ℚ × Agent}
    (h : py_max qs = some m) : m ∈ qs := by
  cases qs with
  | nil => simp [py_max] at h
  | cons x xs =>
    simp only [py_max, Option.some.injEq] at h
    subst h
    exact foldl_pick_mem xs x

/-- C10: `assign_agent` never returns an agent that has one or more task
assignments currently recorded in the scheduler's own `assignments` map:
the returned agent's entry in that map is absent or empty at call time
(busyness is decided solely by `_is_agent_busy`, which reads only that
map), regardless of any busy flag the agent object itself might carry. -/
theorem c10_assigned_agent_not_busy
    (st : TaskScheduler) (task : STask) (agents : List Agent)
    (a : Agent) (st' : TaskScheduler)
    (h : assign_agent st task agents = .ok (some a, st')) :
    dict_get st.assignments a.id = none ∨ dict_get st.assignments a.id = some [] := by
  cases hq : qualify st task agents with
  | error e => simp [assign_agent, hq] at h
  | ok qs =>
    cases hm : py_max qs with
    | none => simp [assign_agent, hq, hm] at h
    | some best =>
      simp only [assign_agent, hq, hm, Except.ok.injEq, Prod.mk.injEq,
        Option.some.injEq] at h
      obtain ⟨hba, _⟩ := h
      have hmem := py_max_mem hm
      have hnb := qualify_not_busy st task agents qs hq best hmem
      rw [hba] at hnb
      cases hd : dict_get st.assignments a.id with
      | none => exact Or.inl rfl
      | some l =>
        right
        simp only [is_agent_busy, hd, decide_eq_false_iff_not, Nat.not_lt,
          Nat.le_zero, List.length_eq_zero] at hnb
        rw [hnb]

theorem c10_assigned_agent_not_busy_witness :
    dict_get TaskScheduler.empty.assignments "a1" = none ∨
    dict_get TaskScheduler.empty.assignments "a1" = some [] :=
  c10_assigned_agent_not_busy TaskScheduler.empty ⟨"t1", ["py"], []⟩
    [⟨"a1", ["py"], []⟩] ⟨"a1", ["py"], []⟩
    (assign_task TaskScheduler.empty "a1" "t1")
    (by
      simp [assign_agent, qualify, calculate_agent_score, skills_superset,
        is_agent_busy, dict_get, get_agent_performance,
        check_resource_availability, py_max, assign_task, dict_set,
        TaskScheduler.empty]
      norm_num)

@[simp] theorem MTask.with_status_id (t : MTask) (st : TaskStatus) :
    (t.with_status st).id = t.id := by cases t; rfl

@[simp] theorem MTask.with_status_status (t : MTask) (st : TaskStatus) :
    (t.with_status st).status = st := by cases t; rfl

@[simp] theorem MTask.with_status_dependencies (t : MTask) (st : TaskStatus) :
    (t.with_status st).dependencies = t.dependencies := by cases t; rfl

@[simp] theorem MTask.with_status_failure_strategy (t : MTask) (st : TaskStatus) :
    (t.with_status st).failure_strategy = t.failure_strategy := by cases t; rfl

@[simp] theorem MTask.with_status_priority (t : MTask) (st : TaskStatus) :
    (t.with_status st).priority = t.priority := by cases t; rfl

@[simp] theorem MTask.with_status_alternate_task (t : MTask) (st : TaskStatus) :
    (t.with_status st).alternate_task = t.alternate_task := by cases t; rfl

@[simp] theorem MTask.erase_dep_id (t : MTask) (dep : String) :
    (t.erase_dep dep).id = t.id := by cases t; rfl

@[simp] theorem MTask.erase_dep_status (t : MTask) (dep : String) :
    (t.erase_dep dep).status = t.status := by cases t; rfl

@[simp] theorem MTask.erase_dep_failure_strategy (t : MTask) (dep : String) :
    (t.erase_dep dep).failure_strategy = t.failure_strategy := by cases t; rfl

@[simp] theorem MTask.erase_dep_priority (t : MTask) (dep : String) :
    (t.erase_dep dep).priority = t.priority := by cases t; rfl

@[simp] theorem MTask.erase_dep_alternate_task (t : MTask) (dep : String) :
    (t.erase_dep dep).alternate_task = t.alternate_task := by cases t; rfl

@[simp] theorem MTask.erase_dep_dependencies (t : MTask) (dep : String) :
    (t.erase_dep dep).dependencies = t.dependencies.erase dep := by cases t; rfl

theorem find?_status_map (tid : String) (st : TaskStatus) :
    ∀ l : List MTask,
    (l.map (fun t => if t.id == tid then t.with_status st else t)).find?
        (fun t => t.id == tid)
      = (l.find? (fun t => t.id == tid)).map (fun t => t.with_status st) := by
  intro l
  induction l with
  | nil => rfl
  | cons t ts ih =>
    by_cases h : t.id = tid
    · rw [List.map_cons,
        List.find?_cons_of_pos _ (by simp [h]),
        List.find?_cons_of_pos _ (by simp [h])]
      simp [h]
    · rw [List.map_cons,
        List.find?_cons_of_neg _ (by simp [h]),
        List.find?_cons_of_neg _ (by simp [h]), ih]

theorem find_task_set_status (s : MState) (tid : String) (st : TaskStatus) :
    find_task (set_status s tid st) tid
      = (find_task s tid).map (fun t => t.with_status st) := by
  simp only [find_task, set_status]
  exact find?_status_map tid st s.tasks

theorem find_task_trace_k (s : MState) (X : List String) (Y : Nat) (tid : String) :
    find_task { s with trace := X, k := Y } tid = find_task s tid := rfl

theorem qualify_no_eligible (st : TaskScheduler) (task : STask) :
    ∀ agents : List Agent,
    (∀ a ∈ agents, is_agent_busy st a = false →
      skills_superset task.required_skills a.skills = false) →
    qualify st task agents = .ok [] := by
  intro agents
  induction agents with
  | nil => intro _; rfl
  | cons a rest ih =>
    intro h
    have hrest := ih (fun x hx hb => h x (List.mem_cons_of_mem a hx) hb)
    by_cases hb : is_agent_busy st a
    · rw [qualify, if_pos hb]
      exact hrest
    · have hsup := h a (List.mem_cons_self a rest) (by simpa using hb)
      rw [qualify, if_neg hb]
      rw [show calculate_agent_score st a task.required_skills task.resources
          = .ok 0 from by rw [calculate_agent_score]; simp [hsup]]
      rw [hrest]
      simp

/-- C9: when no non-busy agent in the pool has all of a ready task's
required skills, `assign_agent` returns `None` (with the scheduler state
untouched), and the manager's loop body then marks that task SKIPPED —
never FAILED — records its id in the `skipped` list of the run result,
and continues with the remaining ready tasks. -/
theorem c9_no_eligible_worker_skips
    (st : TaskScheduler) (task : STask) (agents : List Agent)
    (s : MState) (oracle : Nat → Decision) (tk : MTask) (R : List String)
    (hno : ∀ a ∈ agents, is_agent_busy st a = false →
      skills_superset task.required_skills a.skills = false)
    (hfind : find_task s tk.id = some tk)
    (hdec : oracle s.k = Decision.no_agent) :
    assign_agent st task agents = .ok (none, st) ∧
    (find_task (process_task oracle s tk.id) tk.id).map MTask.status
      = some TaskStatus.skipped ∧
    (process_task oracle s tk.id).skipped_res = s.skipped_res ++ [tk.id] ∧
    (process_task oracle s tk.id).failed_res = s.failed_res ∧
    process_list oracle s (tk.id :: R)
      = process_list oracle (process_task oracle s tk.id) R := by
  have hq := qualify_no_eligible st task agents hno
  have hfind' : find_task { s with trace := s.trace ++ [tk.id], k := s.k + 1 } tk.id
      = some tk := hfind
  refine ⟨?_, ?_, ?_, ?_, rfl⟩
  · simp [assign_agent, hq, py_max]
  · have hfind2 : s.tasks.find? (fun t => t.id == tk.id) = some tk := hfind
    simp only [process_task, hdec, find_task, set_status, hfind2]
    rw [find?_status_map, hfind2]
    simp
  · simp only [process_task, hdec, hfind']
    simp [set_status]
  · simp only [process_task, hdec, hfind']
    simp [set_status]

theorem c9_no_eligible_worker_skips_witness :
    (assign_agent TaskScheduler.empty ⟨"t1", ["py"], []⟩ [⟨"a1", ["js"], []⟩]
      = .ok (none, TaskScheduler.empty) ∧
    (find_task (process_task (fun _ => Decision.no_agent) chain_state "a") "a").map
        MTask.status = some TaskStatus.skipped ∧
    (process_task (fun _ => Decision.no_agent) chain_state "a").skipped_res
      = chain_state.skipped_res ++ ["a"] ∧
    (process_task (fun _ => Decision.no_agent) chain_state "a").failed_res
      = chain_state.failed_res ∧
    process_list (fun _ => Decision.no_agent) chain_state ("a" :: ["b"])
      = process_list (fun _ => Decision.no_agent)
          (process_task (fun _ => Decision.no_agent) chain_state "a") ["b"]) :=
  c9_no_eligible_worker_skips TaskScheduler.empty ⟨"t1", ["py"], []⟩
    [⟨"a1", ["js"], []⟩] chain_state (fun _ => Decision.no_agent)
    (MTask.mk "a" [] TaskStatus.pending "skip_dependent" 0 none) ["b"]
    (by decide) rfl rfl

/-! ### Plumbing lemmas for the TaskManager invariant development -/

theorem find_task_some_id {s : MState} {x : String} {t : MTask}
    (h : find_task s x = some t) : t.id = x := by
  have := List.find?_some h
  simpa using this

theorem find?_map_id_pres {f : MTask → MTask} (hf : ∀ t, (f t).id = t.id) (x : String) :
    ∀ l : List MTask,
    (l.map f).find? (fun t => t.id == x) = (l.find? (fun t => t.id == x)).map f := by
  intro l
  induction l with
  | nil => rfl
  | cons t ts ih =>
    by_cases h : t.id = x
    · rw [List.map_cons, List.find?_cons_of_pos _ (by simp [hf, h]),
        List.find?_cons_of_pos _ (by simp [h])]
      rfl
    · rw [List.map_cons, List.find?_cons_of_neg _ (by simp [hf, h]),
        List.find?_cons_of_neg _ (by simp [h]), ih]

theorem find_task_set_status_eq (s : MState) (tid : String) (st : TaskStatus) (x : String) :
    find_task (set_status s tid st) x
      = (find_task s x).map (fun t => if t.id == tid then t.with_status st else t) := by
  simp only [find_task, set_status]
  exact find?_map_id_pres
    (fun t => by by_cases h : t.id = tid <;> simp [h]) x s.tasks

theorem find_task_remove_dep_eq (s : MState) (tid dep x : String) :
    find_task (remove_dep s tid dep) x
      = (find_task s x).map (fun t => if t.id == tid then t.erase_dep dep else t) := by
  simp only [find_task, remove_dep]
  exact find?_map_id_pres
    (fun t => by by_cases h : t.id = tid <;> simp [h]) x s.tasks

theorem set_status_edges (s : MState) (tid : String) (st : TaskStatus) :
    (set_status s tid st).edges = s.edges := rfl

theorem remove_dep_edges (s : MState) (tid dep : String) :
    (remove_dep s tid dep).edges = s.edges := rfl

/-- Net effect of the dependent-update fold in `_handle_completion`
on task lookup: per task, one `erase_dep tid` per matching successor
entry (the conditional queue insertion does not touch the tasks). -/
theorem find_task_fold_remove (tid : String) :
    ∀ (us : List String) (s : MState) (x : String),
    find_task (us.foldl (fun s u =>
        let s := remove_dep s u tid
        match find_task s u with
        | some ut =>
          if ut.is_ready then { s with queue_heap := s.queue_heap ++ [(-ut.priority, u)] }
          else s
        | none => s) s) x
      = (find_task s x).map
          (fun t => us.foldl (fun t u => if t.id == u then t.erase_dep tid else t) t) := by
  intro us
  induction us with
  | nil =>
    intro s x
    simp
  | cons u us ih =>
    intro s x
    rw [List.foldl_cons, ih]
    have hb : find_task
        (let s1 := remove_dep s u tid
         match find_task s1 u with
         | some ut =>
           if ut.is_ready then { s1 with queue_heap := s1.queue_heap ++ [(-ut.priority, u)] }
           else s1
         | none => s1) x
        = find_task (remove_dep s u tid) x := by
      cases hm : find_task (remove_dep s u tid) u with
      | none => simp only [hm]
      | some ut =>
        simp only [hm]
        by_cases hr : ut.is_ready
        · rw [if_pos hr]
          rfl
        · rw [if_neg hr]
    rw [hb, find_task_remove_dep_eq]
    cases find_task s x with
    | none => rfl
    | some t => simp

/-- Net effect of the cascade fold in `_handle_failure` for
`skip_dependent` on task lookup. -/
theorem find_task_fold_skip :
    ∀ (us : List String) (s : MState) (x : String),
    find_task (us.foldl (fun s u =>
        let s := set_status s u TaskStatus.skipped
        { s with skipped_res := s.skipped_res ++ [u] }) s) x
      = (find_task s x).map
          (fun t => us.foldl
            (fun t u => if t.id == u then t.with_status TaskStatus.skipped else t) t) := by
  intro us
  induction us with
  | nil =>
    intro s x
    simp
  | cons u us ih =>
    intro s x
    rw [List.foldl_cons, ih]
    have hb : find_task
        (let s1 := set_status s u TaskStatus.skipped
         { s1 with skipped_res := s1.skipped_res ++ [u] }) x
        = find_task (set_status s u TaskStatus.skipped) x := rfl
    rw [hb, find_task_set_status_eq]
    cases find_task s x with
    | none => rfl
    | some t => simp

theorem fold_remove_edges (tid : String) :
    ∀ (us : List String) (s : MState),
    (us.foldl (fun s u =>
        let s := remove_dep s u tid
        match find_task s u with
        | some ut =>
          if ut.is_ready then { s with queue_heap := s.queue_heap ++ [(-ut.priority, u)] }
          else s
        | none => s) s).edges = s.edges := by
  intro us
  induction us with
  | nil => intro s; rfl
  | cons u us ih =>
    intro s
    rw [List.foldl_cons, ih]
    cases hm : find_task (remove_dep s u tid) u with
    | none => simp only [hm]; rfl
    | some ut =>
      simp only [hm]
      by_cases hr : ut.is_ready
      · rw [if_pos hr]
        rfl
      · rw [if_neg hr]
        rfl

theorem fold_skip_edges :
    ∀ (us : List String) (s : MState),
    (us.foldl (fun s u =>
        let s := set_status s u TaskStatus.skipped
        { s with skipped_res := s.skipped_res ++ [u] }) s).edges = s.edges := by
  intro us
  induction us with
  | nil => intro s; rfl
  | cons u us ih =>
    intro s
    rw [List.foldl_cons, ih]
    rfl

theorem MTask.with_status_with_status (t : MTask) (a b : TaskStatus) :
    (t.with_status a).with_status b = t.with_status b := by cases t; rfl

theorem MTask.with_status_alt_defs (t : MTask) (st : TaskStatus) :
    (t.with_status st).alt_defs = t.alt_defs := by
  cases t with
  | mk i d s f p a => cases a <;> rfl

theorem MTask.erase_dep_alt_defs (t : MTask) (dep : String) :
    (t.erase_dep dep).alt_defs = t.alt_defs := by
  cases t with
  | mk i d s f p a => cases a <;> rfl

theorem task_fold_skip_id (us : List String) :
    ∀ t : MTask,
    (us.foldl (fun t u => if t.id == u then t.with_status TaskStatus.skipped else t) t).id
      = t.id := by
  induction us with
  | nil => intro t; rfl
  | cons u us ih =>
    intro t
    rw [List.foldl_cons]
    by_cases h : t.id = u
    · rw [if_pos (by simp [h]), ih]
      simp
    · rw [if_neg (by simp [h]), ih]

theorem task_fold_skip_status (us : List String) :
    ∀ t : MTask,
    (us.foldl (fun t u => if t.id == u then t.with_status TaskStatus.skipped else t) t).status
      = if t.id ∈ us then TaskStatus.skipped else t.status := by
  induction us with
  | nil => intro t; simp
  | cons u us ih =>
    intro t
    rw [List.foldl_cons]
    by_cases h : t.id = u
    · rw [if_pos (by simp [h]), ih]
      simp [h]
    · rw [if_neg (by simp [h]), ih]
      by_cases h2 : t.id ∈ us
      · simp [h2]
      · simp [h, h2]

theorem task_fold_skip_deps (us : List String) :
    ∀ t : MTask,
    (us.foldl (fun t u => if t.id == u then t.with_status TaskStatus.skipped else t)
        t).dependencies = t.dependencies := by
  induction us with
  | nil => intro t; rfl
  | cons u us ih =>
    intro t
    rw [List.foldl_cons]
    by_cases h : t.id = u
    · rw [if_pos (by simp [h]), ih]
      simp
    · rw [if_neg (by simp [h]), ih]

theorem task_fold_skip_strategy (us : List String) :
    ∀ t : MTask,
    (us.foldl (fun t u => if t.id == u then t.with_status TaskStatus.skipped else t)
        t).failure_strategy = t.failure_strategy := by
  induction us with
  | nil => intro t; rfl
  | cons u us ih =>
    intro t
    rw [List.foldl_cons]
    by_cases h : t.id = u
    · rw [if_pos (by simp [h]), ih]
      simp
    · rw [if_neg (by simp [h]), ih]

theorem task_fold_skip_alt_defs (us : List String) :
    ∀ t : MTask,
    (us.foldl (fun t u => if t.id == u then t.with_status TaskStatus.skipped else t)
        t).alt_defs = t.alt_defs := by
  induction us with
  | nil => intro t; rfl
  | cons u us ih =>
    intro t
    rw [List.foldl_cons]
    by_cases h : t.id = u
    · rw [if_pos (by simp [h]), ih, MTask.with_status_alt_defs]
    · rw [if_neg (by simp [h]), ih]

theorem task_fold_rm_id (tid : String) (us : List String) :
    ∀ t : MTask,
    (us.foldl (fun t u => if t.id == u then t.erase_dep tid else t) t).id = t.id := by
  induction us with
  | nil => intro t; rfl
  | cons u us ih =>
    intro t
    rw [List.foldl_cons]
    by_cases h : t.id = u
    · rw [if_pos (by simp [h]), ih]
      simp
    · rw [if_neg (by simp [h]), ih]

theorem task_fold_rm_status (tid : String) (us : List String) :
    ∀ t : MTask,
    (us.foldl (fun t u => if t.id == u then t.erase_dep tid else t) t).status
      = t.status := by
  induction us with
  | nil => intro t; rfl
  | cons u us ih =>
    intro t
    rw [List.foldl_cons]
    by_cases h : t.id = u
    · rw [if_pos (by simp [h]), ih]
      simp
    · rw [if_neg (by simp [h]), ih]

theorem task_fold_rm_strategy (tid : String) (us : List String) :
    ∀ t : MTask,
    (us.foldl (fun t u => if t.id == u then t.erase_dep tid else t) t).failure_strategy
      = t.failure_strategy := by
  induction us with
  | nil => intro t; rfl
  | cons u us ih =>
    intro t
    rw [List.foldl_cons]
    by_cases h : t.id = u
    · rw [if_pos (by simp [h]), ih]
      simp
    · rw [if_neg (by simp [h]), ih]

theorem task_fold_rm_alt_defs (tid : String) (us : List String) :
    ∀ t : MTask,
    (us.foldl (fun t u => if t.id == u then t.erase_dep tid else t) t).alt_defs
      = t.alt_defs := by
  induction us with
  | nil => intro t; rfl
  | cons u us ih =>
    intro t
    rw [List.foldl_cons]
    by_cases h : t.id = u
    · rw [if_pos (by simp [h]), ih, MTask.erase_dep_alt_defs]
    · rw [if_neg (by simp [h]), ih]

theorem task_fold_rm_deps_sub (tid : String) (us : List String) :
    ∀ (t : MTask) (d : String),
    d ∈ (us.foldl (fun t u => if t.id == u then t.erase_dep tid else t) t).dependencies →
    d ∈ t.dependencies := by
  induction us with
  | nil => intro t d h; exact h
  | cons u us ih =>
    intro t d h
    rw [List.foldl_cons] at h
    by_cases hc : t.id = u
    · rw [if_pos (by simp [hc])] at h
      have := ih _ d h
      rw [MTask.erase_dep_dependencies] at this
      exact (t.dependencies.erase_sublist tid).mem this
    · rw [if_neg (by simp [hc])] at h
      exact ih t d h

theorem task_fold_rm_deps_keep (tid : String) (us : List String) :
    ∀ (t : MTask) (d : String), d ≠ tid →
    d ∈ t.dependencies →
    d ∈ (us.foldl (fun t u => if t.id == u then t.erase_dep tid else t) t).dependencies := by
  induction us with
  | nil => intro t d _ h; exact h
  | cons u us ih =>
    intro t d hne h
    rw [List.foldl_cons]
    by_cases hc : t.id = u
    · rw [if_pos (by simp [hc])]
      exact ih _ d hne (by
        rw [MTask.erase_dep_dependencies]
        exact (List.mem_erase_of_ne hne).mpr h)
    · rw [if_neg (by simp [hc])]
      exact ih t d hne h

theorem deps_met_eq (s : MState) (t : MTask) :
    deps_met s t = t.dependencies.all (fun d => completed_dep s d) := by
  unfold deps_met
  exact congrArg (List.all t.dependencies)
    (funext fun d => by unfold completed_dep; cases find_task s d <;> rfl)

theorem Reach.mono {E1 E2 : List (String × String)} (hsub : ∀ e ∈ E1, e ∈ E2) :
    ∀ {x y : String}, Reach E1 x y → Reach E2 x y := by
  intro x y h
  induction h with
  | base a b hab => exact Reach.base a b (hsub _ hab)
  | step a b c hab _ ih => exact Reach.step a b c (hsub _ hab) ih

theorem edge_blocked {s : MState}
    (hT : edge_targets_ok s = true) (hE : edge_deps_ok s = true)
    (hC : preds_completed_ok s = true)
    {a b : String} (hab : (a, b) ∈ s.edges) (ha : completed_dep s a = false) :
    completed_dep s b = false ∧ ready_id s b = false := by
  have hTe := List.all_eq_true.mp hT (a, b) hab
  simp only at hTe
  obtain ⟨t, ht⟩ := Option.isSome_iff_exists.mp hTe
  have hCe := List.all_eq_true.mp hC (a, b) hab
  simp only [ht, ha, Bool.or_false] at hCe
  have h0 : (t.status == TaskStatus.completed || t.status == TaskStatus.failed) = false := by
    cases hcc : (t.status == TaskStatus.completed || t.status == TaskStatus.failed) with
    | false => rfl
    | true => rw [hcc] at hCe; simp at hCe
  have hnc : (t.status == TaskStatus.completed) = false := by
    cases hx : (t.status == TaskStatus.completed) with
    | false => rfl
    | true => rw [hx] at h0; simp at h0
  constructor
  · unfold completed_dep
    rw [ht]
    exact hnc
  · simp only [ready_id, ht, ready_task, deps_met_eq]
    by_cases hp : t.status = TaskStatus.pending
    · have hEe := List.all_eq_true.mp hE (a, b) hab
      simp only [ht, ha, Bool.or_false] at hEe
      have hmem : a ∈ t.dependencies := by simpa using hEe
      cases hall : t.dependencies.all (fun d => completed_dep s d) with
      | false => simp [hall]
      | true =>
        have := List.all_eq_true.mp hall a hmem
        rw [ha] at this
        exact absurd this (by simp)
    · simp [hp]

theorem reach_blocked {s : MState}
    (hT : edge_targets_ok s = true) (hE : edge_deps_ok s = true)
    (hC : preds_completed_ok s = true) :
    ∀ {x y : String}, Reach s.edges x y → completed_dep s x = false →
    completed_dep s y = false ∧ ready_id s y = false := by
  intro x y h
  induction h with
  | base a b hab => intro hx; exact edge_blocked hT hE hC hab hx
  | step a b c hab _ ih => intro hx; exact ih (edge_blocked hT hE hC hab hx).1

theorem halted_not_completed {s : MState} {f : String}
    (h : halted s f = true) : completed_dep s f = false := by
  unfold completed_dep
  cases hf : find_task s f with
  | none => rfl
  | some t =>
    unfold halted at h
    rw [hf] at h
    show (t.status == TaskStatus.completed) = false
    rcases Bool.or_eq_true_iff.mp h with h1 | h1
    · rw [eq_of_beq h1]
      rfl
    · rw [eq_of_beq h1]
      rfl

theorem ready_id_elim {s : MState} {x : String} (h : ready_id s x = true) :
    ∃ t, find_task s x = some t ∧ t.status = TaskStatus.pending ∧
      deps_met s t = true := by
  unfold ready_id at h
  cases hf : find_task s x with
  | none => rw [hf] at h; exact absurd h (by simp)
  | some t =>
    rw [hf] at h
    have h2 : ready_task s t = true := h
    unfold ready_task at h2
    rcases Bool.and_eq_true_iff.mp h2 with ⟨h1, h3⟩
    exact ⟨t, rfl, eq_of_beq h1, h3⟩

theorem ready_not_halted {s : MState} {x : String} (h : ready_id s x = true) :
    halted s x = false := by
  obtain ⟨t, ht, hp, _⟩ := ready_id_elim h
  unfold halted
  rw [ht]
  show (t.status == TaskStatus.failed || t.status == TaskStatus.skipped) = false
  rw [hp]
  rfl

theorem map_id_sublist_w_ids (s : MState) :
    (s.tasks.map MTask.id).Sublist (w_ids s) := by
  unfold w_ids
  induction s.tasks with
  | nil => simp
  | cons t ts ih =>
    rw [List.map_cons, List.flatMap_cons]
    exact List.Sublist.cons₂ t.id (ih.trans (List.sublist_append_right _ _))

theorem tasks_id_nodup {s : MState} (hN : (w_ids s).Nodup) :
    (s.tasks.map MTask.id).Nodup :=
  (map_id_sublist_w_ids s).nodup hN

theorem mem_id_unique {s : MState} {tid : String} {tc t : MTask}
    (hN : (w_ids s).Nodup) (hfind : find_task s tid = some tc)
    (ht : t ∈ s.tasks) (hid : t.id = tid) : t = tc := by
  have htc : tc ∈ s.tasks := List.mem_of_find?_eq_some hfind
  have hcid : tc.id = tid := find_task_some_id hfind
  exact List.inj_on_of_nodup_map (tasks_id_nodup hN) ht htc (by rw [hid, hcid])

theorem flatMap_congr_mem {l : List MTask} {f g : MTask → List String}
    (h : ∀ t ∈ l, f t = g t) : l.flatMap f = l.flatMap g := by
  induction l with
  | nil => rfl
  | cons t ts ih =>
    rw [List.flatMap_cons, List.flatMap_cons, h t (List.mem_cons_self t ts),
      ih (fun u hu => h u (List.mem_cons_of_mem t hu))]

theorem deps_of_status_ite (t : MTask) (c : Bool) (st : TaskStatus) :
    (if c = true then t.with_status st else t).dependencies = t.dependencies := by
  cases c <;> simp

/-- Preservation of the invariant by a status write that moves a task
from a non-COMPLETED, non-FAILED status to another one (used for the
SKIPPED writes of the no-agent path and the failure cascade, and for the
net effect of the retry reset). -/
theorem set_nc_preserves (s : MState) (tid : String) (tc : MTask) (st : TaskStatus)
    (hInv : Inv s) (hfind : find_task s tid = some tc)
    (hnc : tc.status ≠ TaskStatus.completed) (hnf : tc.status ≠ TaskStatus.failed)
    (hstnc : st ≠ TaskStatus.completed) (hstnf : st ≠ TaskStatus.failed) :
    Inv (set_status s tid st) ∧
    (∀ x, completed_dep (set_status s tid st) x = completed_dep s x) ∧
    (set_status s tid st).edges = s.edges := by
  obtain ⟨hT, hE, hC, hA, hN⟩ := hInv
  have hfx := find_task_set_status_eq s tid st
  have hcd : ∀ x, completed_dep (set_status s tid st) x = completed_dep s x := by
    intro x
    unfold completed_dep
    rw [hfx x]
    cases hf : find_task s x with
    | none => rfl
    | some t =>
      show ((if t.id == tid then t.with_status st else t).status == TaskStatus.completed)
        = (t.status == TaskStatus.completed)
      by_cases hx : t.id = tid
      · have hx2 : x = tid := by rw [← find_task_some_id hf, hx]
        subst hx2
        have hteq : t = tc := by
          rw [hf] at hfind
          exact Option.some.inj hfind
        subst hteq
        rw [if_pos (by simp [hx]), MTask.with_status_status]
        simp [hstnc, hnc]
      · rw [if_neg (by simp [hx])]
  refine ⟨⟨?_, ?_, ?_, ?_, ?_⟩, hcd, rfl⟩
  · rw [edge_targets_ok, List.all_eq_true]
    intro e he
    rw [set_status_edges] at he
    have := List.all_eq_true.mp hT e he
    simp only [hfx]
    cases hf : find_task s e.2 with
    | none => rw [hf] at this; exact absurd this (by simp)
    | some t => simp
  · rw [edge_deps_ok, List.all_eq_true]
    intro e he
    rw [set_status_edges] at he
    have hold := List.all_eq_true.mp hE e he
    simp only [hfx, hcd]
    cases hf : find_task s e.2 with
    | none => simp
    | some t =>
      rw [hf] at hold
      show ((if t.id == tid then t.with_status st else t).dependencies.contains e.1
        || completed_dep s e.1) = true
      by_cases hx : t.id = tid
      · rw [if_pos (by simp [hx]), MTask.with_status_dependencies]
        exact hold
      · rw [if_neg (by simp [hx])]
        exact hold
  · rw [preds_completed_ok, List.all_eq_true]
    intro e he
    rw [set_status_edges] at he
    have hold := List.all_eq_true.mp hC e he
    simp only [hfx, hcd]
    cases hf : find_task s e.2 with
    | none => simp
    | some t =>
      rw [hf] at hold
      show (!((if t.id == tid then t.with_status st else t).status == TaskStatus.completed
            || (if t.id == tid then t.with_status st else t).status == TaskStatus.failed)
        || completed_dep s e.1) = true
      by_cases hx : t.id = tid
      · rw [if_pos (by simp [hx]), MTask.with_status_status]
        simp [hstnc, hstnf]
      · rw [if_neg (by simp [hx])]
        exact hold
  · rw [alts_pending_ok, List.all_eq_true]
    intro t' ht'
    have hmem : t' ∈ s.tasks.map (fun t => if t.id == tid then t.with_status st else t) := ht'
    obtain ⟨t, ht, hteq⟩ := List.mem_map.mp hmem
    subst hteq
    have hold := List.all_eq_true.mp hA t ht
    by_cases hx : t.id = tid
    · have hteq2 : t = tc := mem_id_unique hN hfind ht hx
      subst hteq2
      rw [if_pos (by simp [hx])]
      show ((t.with_status st).status == TaskStatus.failed
        || (t.with_status st).alt_defs.all (fun a => a.status == TaskStatus.pending)) = true
      rw [MTask.with_status_status, MTask.with_status_alt_defs]
      have : (t.status == TaskStatus.failed) = false := by simp [hnf]
      rw [this] at hold
      simp only [Bool.false_or] at hold
      simp [hold]
    · rw [if_neg (by simp [hx])]
      exact hold
  · have : w_ids (set_status s tid st) = w_ids s := by
      unfold w_ids
      show (s.tasks.map (fun t => if t.id == tid then t.with_status st else t)).flatMap _
        = s.tasks.flatMap _
      rw [List.flatMap_map]
      refine flatMap_congr_mem (fun t hmem => ?_)
      by_cases hx : t.id = tid
      · have hteq : t = tc := mem_id_unique hN hfind hmem hx
        subst hteq
        rw [if_pos (by simp [hx])]
        simp only [MTask.with_status_id, MTask.with_status_status,
          MTask.with_status_alt_defs]
        have h1 : (st == TaskStatus.failed) = false := by simp [hstnf]
        have h2 : (t.status == TaskStatus.failed) = false := by simp [hnf]
        rw [h1, h2]
      · rw [if_neg (by simp [hx])]
    rw [this]
    exact hN

theorem flatMap_sublist_mem {l : List MTask} {f g : MTask → List String}
    (h : ∀ t ∈ l, (f t).Sublist (g t)) : (l.flatMap f).Sublist (l.flatMap g) := by
  induction l with
  | nil => simp
  | cons t ts ih =>
    rw [List.flatMap_cons, List.flatMap_cons]
    exact (h t (List.mem_cons_self t ts)).append
      (ih (fun u hu => h u (List.mem_cons_of_mem t hu)))

/-- Preservation of the invariant by the `task.fail()` status write on a
ready task (every dependency completed). -/
theorem set_failed_preserves (s : MState) (tid : String) (tc : MTask)
    (hInv : Inv s) (hfind : find_task s tid = some tc)
    (hpend : tc.status = TaskStatus.pending) (hdm : deps_met s tc = true) :
    Inv (set_status s tid TaskStatus.failed) ∧
    (∀ x, completed_dep (set_status s tid TaskStatus.failed) x = completed_dep s x) ∧
    (set_status s tid TaskStatus.failed).edges = s.edges := by
  obtain ⟨hT, hE, hC, hA, hN⟩ := hInv
  have hfx := find_task_set_status_eq s tid TaskStatus.failed
  have hcd : ∀ x, completed_dep (set_status s tid TaskStatus.failed) x
      = completed_dep s x := by
    intro x
    unfold completed_dep
    rw [hfx x]
    cases hf : find_task s x with
    | none => rfl
    | some t =>
      show ((if t.id == tid then t.with_status TaskStatus.failed else t).status
          == TaskStatus.completed) = (t.status == TaskStatus.completed)
      by_cases hx : t.id = tid
      · have hx2 : x = tid := by rw [← find_task_some_id hf, hx]
        subst hx2
        have hteq : t = tc := by rw [hf] at hfind; exact Option.some.inj hfind
        subst hteq
        rw [if_pos (by simp [hx]), MTask.with_status_status, hpend]
        rfl
      · rw [if_neg (by simp [hx])]
  refine ⟨⟨?_, ?_, ?_, ?_, ?_⟩, hcd, rfl⟩
  · rw [edge_targets_ok, List.all_eq_true]
    intro e he
    rw [set_status_edges] at he
    have := List.all_eq_true.mp hT e he
    simp only [hfx]
    cases hf : find_task s e.2 with
    | none => rw [hf] at this; exact absurd this (by simp)
    | some t => simp
  · rw [edge_deps_ok, List.all_eq_true]
    intro e he
    rw [set_status_edges] at he
    have hold := List.all_eq_true.mp hE e he
    simp only [hfx, hcd]
    cases hf : find_task s e.2 with
    | none => simp
    | some t =>
      rw [hf] at hold
      show ((if t.id == tid then t.with_status TaskStatus.failed else t).dependencies.contains e.1
        || completed_dep s e.1) = true
      by_cases hx : t.id = tid
      · rw [if_pos (by simp [hx]), MTask.with_status_dependencies]
        exact hold
      · rw [if_neg (by simp [hx])]
        exact hold
  · rw [preds_completed_ok, List.all_eq_true]
    intro e he
    rw [set_status_edges] at he
    have hold := List.all_eq_true.mp hC e he
    have holdE := List.all_eq_true.mp hE e he
    simp only [hfx, hcd]
    cases hf : find_task s e.2 with
    | none => simp
    | some t =>
      rw [hf] at hold holdE
      show (!((if t.id == tid then t.with_status TaskStatus.failed else t).status == TaskStatus.completed
            || (if t.id == tid then t.with_status TaskStatus.failed else t).status == TaskStatus.failed)
        || completed_dep s e.1) = true
      by_cases hx : t.id = tid
      · have hx2 : e.2 = tid := by rw [← find_task_some_id hf, hx]
        have hteq : t = tc := by rw [hx2] at hf; rw [hf] at hfind; exact Option.some.inj hfind
        subst hteq
        rw [if_pos (by simp [hx]), MTask.with_status_status]
        have hsrc : completed_dep s e.1 = true := by
          rcases Bool.or_eq_true_iff.mp holdE with h1 | h1
          · rw [deps_met_eq] at hdm
            exact List.all_eq_true.mp hdm e.1 (by simpa using h1)
          · exact h1
        simp [hsrc]
      · rw [if_neg (by simp [hx])]
        exact hold
  · rw [alts_pending_ok, List.all_eq_true]
    intro t' ht'
    have hmem : t' ∈ s.tasks.map
        (fun t => if t.id == tid then t.with_status TaskStatus.failed else t) := ht'
    obtain ⟨t, ht, hteq⟩ := List.mem_map.mp hmem
    subst hteq
    have hold := List.all_eq_true.mp hA t ht
    by_cases hx : t.id = tid
    · rw [if_pos (by simp [hx])]
      show ((t.with_status TaskStatus.failed).status == TaskStatus.failed
        || (t.with_status TaskStatus.failed).alt_defs.all
            (fun a => a.status == TaskStatus.pending)) = true
      rw [MTask.with_status_status]
      simp
    · rw [if_neg (by simp [hx])]
      exact hold
  · have hsub : (w_ids (set_status s tid TaskStatus.failed)).Sublist (w_ids s) := by
      unfold w_ids
      show ((s.tasks.map (fun t => if t.id == tid then t.with_status TaskStatus.failed else t)).flatMap _).Sublist
        (s.tasks.flatMap _)
      rw [List.flatMap_map]
      refine flatMap_sublist_mem (fun t hmem => ?_)
      by_cases hx : t.id = tid
      · rw [if_pos (by simp [hx])]
        simp only [MTask.with_status_id, MTask.with_status_status,
          MTask.with_status_alt_defs]
        have h1 : ((TaskStatus.failed : TaskStatus) == TaskStatus.failed) = true := rfl
        rw [h1]
        simp only [if_pos rfl]
        exact List.Sublist.cons₂ t.id (by simp)
      · rw [if_neg (by simp [hx])]
    exact hsub.nodup hN

/-- Preservation of the invariant by the `task.complete()` status write
on a ready task. -/
theorem set_completed_preserves (s : MState) (tid : String) (tc : MTask)
    (hInv : Inv s) (hfind : find_task s tid = some tc)
    (hpend : tc.status = TaskStatus.pending) (hdm : deps_met s tc = true) :
    Inv (set_status s tid TaskStatus.completed) ∧
    (∀ x, completed_dep s x = true →
      completed_dep (set_status s tid TaskStatus.completed) x = true) ∧
    completed_dep (set_status s tid TaskStatus.completed) tid = true ∧
    (set_status s tid TaskStatus.completed).edges = s.edges := by
  obtain ⟨hT, hE, hC, hA, hN⟩ := hInv
  have hfx := find_task_set_status_eq s tid TaskStatus.completed
  have hcdm : ∀ x, completed_dep s x = true →
      completed_dep (set_status s tid TaskStatus.completed) x = true := by
    intro x hx
    unfold completed_dep at hx ⊢
    rw [hfx x]
    cases hf : find_task s x with
    | none => rw [hf] at hx; exact absurd hx (by simp)
    | some t =>
      rw [hf] at hx
      show ((if t.id == tid then t.with_status TaskStatus.completed else t).status
          == TaskStatus.completed) = true
      by_cases hxx : t.id = tid
      · rw [if_pos (by simp [hxx]), MTask.with_status_status]
        rfl
      · rw [if_neg (by simp [hxx])]
        exact hx
  have hcdt : completed_dep (set_status s tid TaskStatus.completed) tid = true := by
    unfold completed_dep
    rw [hfx tid, hfind]
    show ((if tc.id == tid then tc.with_status TaskStatus.completed else tc).status
        == TaskStatus.completed) = true
    rw [if_pos (by simp [find_task_some_id hfind]), MTask.with_status_status]
    rfl
  refine ⟨⟨?_, ?_, ?_, ?_, ?_⟩, hcdm, hcdt, rfl⟩
  · rw [edge_targets_ok, List.all_eq_true]
    intro e he
    rw [set_status_edges] at he
    have := List.all_eq_true.mp hT e he
    simp only [hfx]
    cases hf : find_task s e.2 with
    | none => rw [hf] at this; exact absurd this (by simp)
    | some t => simp
  · rw [edge_deps_ok, List.all_eq_true]
    intro e he
    rw [set_status_edges] at he
    have hold := List.all_eq_true.mp hE e he
    simp only [hfx]
    cases hf : find_task s e.2 with
    | none => simp
    | some t =>
      rw [hf] at hold
      show ((if t.id == tid then t.with_status TaskStatus.completed else t).dependencies.contains e.1
        || completed_dep (set_status s tid TaskStatus.completed) e.1) = true
      rcases Bool.or_eq_true_iff.mp hold with h1 | h1
      · rw [deps_of_status_ite]
        have hm : e.1 ∈ t.dependencies := by simpa using h1
        simp [hm]
      · rw [hcdm e.1 h1]
        simp
  · rw [preds_completed_ok, List.all_eq_true]
    intro e he
    rw [set_status_edges] at he
    have hold := List.all_eq_true.mp hC e he
    have holdE := List.all_eq_true.mp hE e he
    simp only [hfx]
    cases hf : find_task s e.2 with
    | none => simp
    | some t =>
      rw [hf] at hold holdE
      show (!((if t.id == tid then t.with_status TaskStatus.completed else t).status == TaskStatus.completed
            || (if t.id == tid then t.with_status TaskStatus.completed else t).status == TaskStatus.failed)
        || completed_dep (set_status s tid TaskStatus.completed) e.1) = true
      by_cases hx : t.id = tid
      · have hx2 : e.2 = tid := by rw [← find_task_some_id hf, hx]
        have hteq : t = tc := by rw [hx2] at hf; rw [hf] at hfind; exact Option.some.inj hfind
        subst hteq
        have hsrc : completed_dep s e.1 = true := by
          rcases Bool.or_eq_true_iff.mp holdE with h1 | h1
          · rw [deps_met_eq] at hdm
            exact List.all_eq_true.mp hdm e.1 (by simpa using h1)
          · exact h1
        rw [hcdm e.1 hsrc]
        simp
      · rw [if_neg (by simp [hx])]
        rcases Bool.or_eq_true_iff.mp hold with h1 | h1
        · simp [h1]
        · rw [hcdm e.1 h1]
          simp
  · rw [alts_pending_ok, List.all_eq_true]
    intro t' ht'
    have hmem : t' ∈ s.tasks.map
        (fun t => if t.id == tid then t.with_status TaskStatus.completed else t) := ht'
    obtain ⟨t, ht, hteq⟩ := List.mem_map.mp hmem
    subst hteq
    have hold := List.all_eq_true.mp hA t ht
    by_cases hx : t.id = tid
    · have hteq2 : t = tc := mem_id_unique hN hfind ht hx
      subst hteq2
      rw [if_pos (by simp [hx])]
      show ((t.with_status TaskStatus.completed).status == TaskStatus.failed
        || (t.with_status TaskStatus.completed).alt_defs.all
            (fun a => a.status == TaskStatus.pending)) = true
      rw [MTask.with_status_status, MTask.with_status_alt_defs]
      have hpf : (t.status == TaskStatus.failed) = false := by rw [hpend]; rfl
      rw [hpf] at hold
      simp only [Bool.false_or] at hold
      simp [hold]
    · rw [if_neg (by simp [hx])]
      exact hold
  · have : w_ids (set_status s tid TaskStatus.completed) = w_ids s := by
      unfold w_ids
      show (s.tasks.map (fun t => if t.id == tid then t.with_status TaskStatus.completed else t)).flatMap _
        = s.tasks.flatMap _
      rw [List.flatMap_map]
      refine flatMap_congr_mem (fun t hmem => ?_)
      by_cases hx : t.id = tid
      · have hteq : t = tc := mem_id_unique hN hfind hmem hx
        subst hteq
        rw [if_pos (by simp [hx])]
        simp only [MTask.with_status_id, MTask.with_status_status,
          MTask.with_status_alt_defs]
        have h1 : ((TaskStatus.completed : TaskStatus) == TaskStatus.failed) = false := rfl
        have h2 : (t.status == TaskStatus.failed) = false := by rw [hpend]; rfl
        rw [h1, h2]
      · rw [if_neg (by simp [hx])]
    rw [this]
    exact hN

theorem find_task_ext {s1 s2 : MState} (ht : s1.tasks = s2.tasks) (x : String) :
    find_task s1 x = find_task s2 x := by
  unfold find_task
  rw [ht]

theorem completed_dep_ext {s1 s2 : MState} (ht : s1.tasks = s2.tasks) (x : String) :
    completed_dep s1 x = completed_dep s2 x := by
  unfold completed_dep
  rw [find_task_ext ht]

theorem deps_met_ext {s1 s2 : MState} (ht : s1.tasks = s2.tasks) (t : MTask) :
    deps_met s1 t = deps_met s2 t := by
  rw [deps_met_eq, deps_met_eq]
  exact congrArg (List.all t.dependencies)
    (funext fun d => completed_dep_ext ht d)

theorem ready_id_ext {s1 s2 : MState} (ht : s1.tasks = s2.tasks) (x : String) :
    ready_id s1 x = ready_id s2 x := by
  unfold ready_id
  rw [find_task_ext ht]
  cases find_task s2 x with
  | none => rfl
  | some t =>
    show ready_task s1 t = ready_task s2 t
    unfold ready_task
    rw [deps_met_ext ht]

theorem halted_ext {s1 s2 : MState} (ht : s1.tasks = s2.tasks) (f : String) :
    halted s1 f = halted s2 f := by
  unfold halted
  rw [find_task_ext ht]

theorem w_ids_ext {s1 s2 : MState} (ht : s1.tasks = s2.tasks) :
    w_ids s1 = w_ids s2 := by
  unfold w_ids
  rw [ht]

theorem inv_ext {s1 s2 : MState} (ht : s1.tasks = s2.tasks)
    (he : s1.edges = s2.edges) (h : Inv s2) : Inv s1 := by
  obtain ⟨hT, hE, hC, hA, hN⟩ := h
  refine ⟨?_, ?_, ?_, ?_, ?_⟩
  · rw [edge_targets_ok, he, List.all_eq_true]
    intro e hm
    have hold := List.all_eq_true.mp hT e hm
    show (find_task s1 e.2).isSome = true
    rw [find_task_ext ht]
    exact hold
  · rw [edge_deps_ok, he, List.all_eq_true]
    intro e hm
    have hold := List.all_eq_true.mp hE e hm
    show (match find_task s1 e.2 with
      | none => true
      | some t => t.dependencies.contains e.1 || completed_dep s1 e.1) = true
    rw [find_task_ext ht, completed_dep_ext ht]
    exact hold
  · rw [preds_completed_ok, he, List.all_eq_true]
    intro e hm
    have hold := List.all_eq_true.mp hC e hm
    show (match find_task s1 e.2 with
      | none => true
      | some t =>
        !(t.status == TaskStatus.completed || t.status == TaskStatus.failed)
          || completed_dep s1 e.1) = true
    rw [find_task_ext ht, completed_dep_ext ht]
    exact hold
  · rw [alts_pending_ok, ht]
    exact hA
  · rw [w_ids_ext ht]
    exact hN

theorem map_congr_mem {l : List MTask} {f : MTask → MTask}
    (h : ∀ t ∈ l, f t = t) : l.map f = l := by
  induction l with
  | nil => rfl
  | cons t ts ih =>
    rw [List.map_cons, h t (List.mem_cons_self t ts),
      ih (fun u hu => h u (List.mem_cons_of_mem t hu))]

theorem set_status_absent {s : MState} {u : String} (st : TaskStatus)
    (h : find_task s u = none) : (set_status s u st).tasks = s.tasks := by
  show s.tasks.map (fun t => if t.id == u then t.with_status st else t) = s.tasks
  refine map_congr_mem (fun t ht => ?_)
  have := List.find?_eq_none.mp h t ht
  rw [if_neg (by simpa using this)]

theorem status_of_rm_ite (t : MTask) (c : Bool) (tid : String) :
    (if c = true then t.erase_dep tid else t).status = t.status := by
  cases c <;> simp

theorem alt_defs_of_rm_ite (t : MTask) (c : Bool) (tid : String) :
    (if c = true then t.erase_dep tid else t).alt_defs = t.alt_defs := by
  cases c <;> simp [MTask.erase_dep_alt_defs]

theorem id_of_rm_ite (t : MTask) (c : Bool) (tid : String) :
    (if c = true then t.erase_dep tid else t).id = t.id := by
  cases c <;> simp

/-- Preservation of the invariant by one `remove_dependency` write when
the removed dependency id is a completed task. -/
theorem remove_dep_preserves (s : MState) (u tid : String)
    (hInv : Inv s) (hcdtid : completed_dep s tid = true) :
    Inv (remove_dep s u tid) ∧
    (∀ x, completed_dep (remove_dep s u tid) x = completed_dep s x) ∧
    (remove_dep s u tid).edges = s.edges := by
  obtain ⟨hT, hE, hC, hA, hN⟩ := hInv
  have hfx := find_task_remove_dep_eq s u tid
  have hcd : ∀ x, completed_dep (remove_dep s u tid) x = completed_dep s x := by
    intro x
    unfold completed_dep
    rw [hfx x]
    cases hf : find_task s x with
    | none => rfl
    | some t =>
      show ((if t.id == u then t.erase_dep tid else t).status == TaskStatus.completed)
        = (t.status == TaskStatus.completed)
      rw [status_of_rm_ite]
  refine ⟨⟨?_, ?_, ?_, ?_, ?_⟩, hcd, rfl⟩
  · rw [edge_targets_ok, List.all_eq_true]
    intro e he
    rw [remove_dep_edges] at he
    have := List.all_eq_true.mp hT e he
    simp only [hfx]
    cases hf : find_task s e.2 with
    | none => rw [hf] at this; exact absurd this (by simp)
    | some t => simp
  · rw [edge_deps_ok, List.all_eq_true]
    intro e he
    rw [remove_dep_edges] at he
    have hold := List.all_eq_true.mp hE e he
    simp only [hfx, hcd]
    cases hf : find_task s e.2 with
    | none => simp
    | some t =>
      rw [hf] at hold
      show ((if t.id == u then t.erase_dep tid else t).dependencies.contains e.1
        || completed_dep s e.1) = true
      rcases Bool.or_eq_true_iff.mp hold with h1 | h1
      · by_cases hx : t.id = u
        · rw [if_pos (by simp [hx]), MTask.erase_dep_dependencies]
          by_cases hetid : e.1 = tid
          · rw [hetid, hcdtid]
            simp
          · have hm : e.1 ∈ t.dependencies.erase tid :=
              (List.mem_erase_of_ne hetid).mpr (by simpa using h1)
            have : (t.dependencies.erase tid).contains e.1 = true := by
              simpa using hm
            rw [this]
            simp
        · rw [if_neg (by simp [hx])]
          rw [h1]
          simp
      · rw [h1]
        simp
  · rw [preds_completed_ok, List.all_eq_true]
    intro e he
    rw [remove_dep_edges] at he
    have hold := List.all_eq_true.mp hC e he
    simp only [hfx, hcd]
    cases hf : find_task s e.2 with
    | none => simp
    | some t =>
      rw [hf] at hold
      show (!((if t.id == u then t.erase_dep tid else t).status == TaskStatus.completed
            || (if t.id == u then t.erase_dep tid else t).status == TaskStatus.failed)
        || completed_dep s e.1) = true
      rw [status_of_rm_ite]
      exact hold
  · rw [alts_pending_ok, List.all_eq_true]
    intro t' ht'
    have hmem : t' ∈ s.tasks.map (fun t => if t.id == u then t.erase_dep tid else t) := ht'
    obtain ⟨t, ht, hteq⟩ := List.mem_map.mp hmem
    subst hteq
    have hold := List.all_eq_true.mp hA t ht
    show ((if t.id == u then t.erase_dep tid else t).status == TaskStatus.failed
      || (if t.id == u then t.erase_dep tid else t).alt_defs.all
          (fun a => a.status == TaskStatus.pending)) = true
    rw [status_of_rm_ite, alt_defs_of_rm_ite]
    exact hold
  · have : w_ids (remove_dep s u tid) = w_ids s := by
      unfold w_ids
      show (s.tasks.map (fun t => if t.id == u then t.erase_dep tid else t)).flatMap _
        = s.tasks.flatMap _
      rw [List.flatMap_map]
      refine flatMap_congr_mem (fun t _ => ?_)
      rw [id_of_rm_ite, status_of_rm_ite, alt_defs_of_rm_ite]
    rw [this]
    exact hN

theorem find?_append_of_some {p : MTask → Bool} {u : MTask} :
    ∀ {l1 : List MTask} (l2 : List MTask), l1.find? p = some u →
    (l1 ++ l2).find? p = some u := by
  intro l1
  induction l1 with
  | nil => intro l2 h; exact absurd h (by simp)
  | cons t ts ih =>
    intro l2 h
    by_cases hp : p t = true
    · rw [List.find?_cons_of_pos _ hp] at h
      rw [List.cons_append, List.find?_cons_of_pos _ hp]
      exact h
    · rw [List.find?_cons_of_neg _ hp] at h
      rw [List.cons_append, List.find?_cons_of_neg _ hp]
      exact ih l2 h

theorem find?_append_of_none {p : MTask → Bool} :
    ∀ {l1 : List MTask} (l2 : List MTask), l1.find? p = none →
    (l1 ++ l2).find? p = l2.find? p := by
  intro l1
  induction l1 with
  | nil => intro l2 _; rfl
  | cons t ts ih =>
    intro l2 h
    by_cases hp : p t = true
    · rw [List.find?_cons_of_pos _ hp] at h
      exact absurd h (by simp)
    · rw [List.find?_cons_of_neg _ hp] at h
      rw [List.cons_append, List.find?_cons_of_neg _ hp]
      exact ih l2 h

/-- Tasks of the skip-cascade fold state: per task, the per-successor
status writes folded at the task level. -/
theorem tasks_fold_skip :
    ∀ (us : List String) (s : MState),
    (us.foldl (fun s u =>
        let s := set_status s u TaskStatus.skipped
        { s with skipped_res := s.skipped_res ++ [u] }) s).tasks
      = s.tasks.map (fun t => us.foldl
          (fun t u => if t.id == u then t.with_status TaskStatus.skipped else t) t) := by
  intro us
  induction us with
  | nil => intro s; simp
  | cons u us ih =>
    intro s
    rw [List.foldl_cons, ih]
    have hb : (let s1 := set_status s u TaskStatus.skipped
               { s1 with skipped_res := s1.skipped_res ++ [u] }).tasks
        = s.tasks.map (fun t => if t.id == u then t.with_status TaskStatus.skipped else t) :=
      rfl
    rw [hb, List.map_map]
    rfl

/-- Tasks of the dependent-update fold state of `_handle_completion`. -/
theorem tasks_fold_remove (tid : String) :
    ∀ (us : List String) (s : MState),
    (us.foldl (fun s u =>
        let s := remove_dep s u tid
        match find_task s u with
        | some ut =>
          if ut.is_ready then { s with queue_heap := s.queue_heap ++ [(-ut.priority, u)] }
          else s
        | none => s) s).tasks
      = s.tasks.map (fun t => us.foldl
          (fun t u => if t.id == u then t.erase_dep tid else t) t) := by
  intro us
  induction us with
  | nil => intro s; simp
  | cons u us ih =>
    intro s
    rw [List.foldl_cons, ih]
    have hb : (let s1 := remove_dep s u tid
               match find_task s1 u with
               | some ut =>
                 if ut.is_ready then
                   { s1 with queue_heap := s1.queue_heap ++ [(-ut.priority, u)] }
                 else s1
               | none => s1).tasks
        = s.tasks.map (fun t => if t.id == u then t.erase_dep tid else t) := by
      cases hm : find_task (remove_dep s u tid) u with
      | none => simp only [hm]; rfl
      | some ut =>
        simp only [hm]
        by_cases hr : ut.is_ready
        · rw [if_pos hr]
          rfl
        · rw [if_neg hr]
          rfl
    rw [hb, List.map_map]
    rfl

theorem fold_skip_skipped_res :
    ∀ (us : List String) (s : MState),
    (us.foldl (fun s u =>
        let s := set_status s u TaskStatus.skipped
        { s with skipped_res := s.skipped_res ++ [u] }) s).skipped_res
      = s.skipped_res ++ us := by
  intro us
  induction us with
  | nil => intro s; simp
  | cons u us ih =>
    intro s
    rw [List.foldl_cons, ih]
    show (set_status s u TaskStatus.skipped).skipped_res ++ [u] ++ us
      = s.skipped_res ++ u :: us
    rw [List.append_assoc]
    rfl

theorem fold_skip_failed_res :
    ∀ (us : List String) (s : MState),
    (us.foldl (fun s u =>
        let s := set_status s u TaskStatus.skipped
        { s with skipped_res := s.skipped_res ++ [u] }) s).failed_res
      = s.failed_res := by
  intro us
  induction us with
  | nil => intro s; rfl
  | cons u us ih =>
    intro s
    rw [List.foldl_cons, ih]
    rfl

theorem fold_skip_trace :
    ∀ (us : List String) (s : MState),
    (us.foldl (fun s u =>
        let s := set_status s u TaskStatus.skipped
        { s with skipped_res := s.skipped_res ++ [u] }) s).trace
      = s.trace := by
  intro us
  induction us with
  | nil => intro s; rfl
  | cons u us ih =>
    intro s
    rw [List.foldl_cons, ih]
    rfl

theorem fold_remove_trace (tid : String) :
    ∀ (us : List String) (s : MState),
    (us.foldl (fun s u =>
        let s := remove_dep s u tid
        match find_task s u with
        | some ut =>
          if ut.is_ready then { s with queue_heap := s.queue_heap ++ [(-ut.priority, u)] }
          else s
        | none => s) s).trace = s.trace := by
  intro us
  induction us with
  | nil => intro s; rfl
  | cons u us ih =>
    intro s
    rw [List.foldl_cons, ih]
    cases hm : find_task (remove_dep s u tid) u with
    | none => simp only [hm]; rfl
    | some ut =>
      simp only [hm]
      by_cases hr : ut.is_ready
      · rw [if_pos hr]
        rfl
      · rw [if_neg hr]
        rfl

/-- A per-task rewrite that keeps ids, dependency lists and alternate
chains, and only moves statuses within the non-COMPLETED, non-FAILED
range (or keeps them), preserves the invariant and the satisfied-
dependency predicate. -/
theorem map_nc_preserves (s : MState) (F : MTask → MTask)
    (hid : ∀ t, (F t).id = t.id)
    (hdeps : ∀ t, (F t).dependencies = t.dependencies)
    (haltd : ∀ t, (F t).alt_defs = t.alt_defs)
    (hst : ∀ t ∈ s.tasks, (F t).status = t.status ∨
      (((F t).status ≠ TaskStatus.completed ∧ (F t).status ≠ TaskStatus.failed) ∧
       t.status ≠ TaskStatus.completed ∧ t.status ≠ TaskStatus.failed))
    (hInv : Inv s) :
    Inv { s with tasks := s.tasks.map F } ∧
    (∀ x, completed_dep { s with tasks := s.tasks.map F } x = completed_dep s x) := by
  obtain ⟨hT, hE, hC, hA, hN⟩ := hInv
  have hfx : ∀ x, find_task { s with tasks := s.tasks.map F } x
      = (find_task s x).map F := by
    intro x
    show (s.tasks.map F).find? (fun t => t.id == x)
      = (s.tasks.find? (fun t => t.id == x)).map F
    exact find?_map_id_pres hid x s.tasks
  have hcd : ∀ x, completed_dep { s with tasks := s.tasks.map F } x
      = completed_dep s x := by
    intro x
    unfold completed_dep
    rw [hfx x]
    cases hf : find_task s x with
    | none => rfl
    | some t =>
      have htm : t ∈ s.tasks := List.mem_of_find?_eq_some hf
      show ((F t).status == TaskStatus.completed) = (t.status == TaskStatus.completed)
      rcases hst t htm with h1 | ⟨⟨h2, _⟩, h3, _⟩
      · rw [h1]
      · rw [show ((F t).status == TaskStatus.completed) = false by simpa using h2,
          show (t.status == TaskStatus.completed) = false by simpa using h3]
  refine ⟨⟨?_, ?_, ?_, ?_, ?_⟩, hcd⟩
  · rw [edge_targets_ok, List.all_eq_true]
    intro e he
    have hold := List.all_eq_true.mp hT e he
    show (find_task { s with tasks := s.tasks.map F } e.2).isSome = true
    rw [hfx]
    cases hf : find_task s e.2 with
    | none => rw [hf] at hold; exact absurd hold (by simp)
    | some t => simp
  · rw [edge_deps_ok, List.all_eq_true]
    intro e he
    have hold := List.all_eq_true.mp hE e he
    show (match find_task { s with tasks := s.tasks.map F } e.2 with
      | none => true
      | some t => t.dependencies.contains e.1
          || completed_dep { s with tasks := s.tasks.map F } e.1) = true
    rw [hfx, hcd]
    cases hf : find_task s e.2 with
    | none => simp
    | some t =>
      rw [hf] at hold
      show ((F t).dependencies.contains e.1 || completed_dep s e.1) = true
      rw [hdeps]
      exact hold
  · rw [preds_completed_ok, List.all_eq_true]
    intro e he
    have hold := List.all_eq_true.mp hC e he
    show (match find_task { s with tasks := s.tasks.map F } e.2 with
      | none => true
      | some t =>
        !(t.status == TaskStatus.completed || t.status == TaskStatus.failed)
          || completed_dep { s with tasks := s.tasks.map F } e.1) = true
    rw [hfx, hcd]
    cases hf : find_task s e.2 with
    | none => simp
    | some t =>
      rw [hf] at hold
      have htm : t ∈ s.tasks := List.mem_of_find?_eq_some hf
      show (!((F t).status == TaskStatus.completed || (F t).status == TaskStatus.failed)
        || completed_dep s e.1) = true
      rcases hst t htm with h1 | ⟨⟨h2, h2f⟩, _, _⟩
      · rw [h1]
        exact hold
      · rw [show ((F t).status == TaskStatus.completed) = false by simpa using h2,
          show ((F t).status == TaskStatus.failed) = false by simpa using h2f]
        simp
  · rw [alts_pending_ok, List.all_eq_true]
    intro t' ht'
    obtain ⟨t, htm, hteq⟩ := List.mem_map.mp ht'
    subst hteq
    have hold := List.all_eq_true.mp hA t htm
    show ((F t).status == TaskStatus.failed
      || (F t).alt_defs.all (fun a => a.status == TaskStatus.pending)) = true
    rw [haltd]
    rcases hst t htm with h1 | ⟨⟨_, h2f⟩, h3c, h3f⟩
    · rw [h1]
      exact hold
    · rw [show ((F t).status == TaskStatus.failed) = false by simpa using h2f]
      have : (t.status == TaskStatus.failed) = false := by simpa using h3f
      rw [this] at hold
      simpa using hold
  · have : w_ids { s with tasks := s.tasks.map F } = w_ids s := by
      unfold w_ids
      show (s.tasks.map F).flatMap _ = s.tasks.flatMap _
      rw [List.flatMap_map]
      refine flatMap_congr_mem (fun t htm => ?_)
      show (F t).id :: (if (F t).status == TaskStatus.failed then []
          else (F t).alt_defs.map MTask.id)
        = t.id :: (if t.status == TaskStatus.failed then [] else t.alt_defs.map MTask.id)
      rw [hid, haltd]
      rcases hst t htm with h1 | ⟨⟨_, h2f⟩, _, h3f⟩
      · rw [h1]
      · rw [show ((F t).status == TaskStatus.failed) = false by simpa using h2f,
          show (t.status == TaskStatus.failed) = false by simpa using h3f]
    rw [this]
    exact hN

/-- A per-task rewrite that keeps ids, statuses and alternate chains and
only removes occurrences of a completed task id from dependency lists
preserves the invariant. -/
theorem map_rm_preserves (s : MState) (F : MTask → MTask) (tid : String)
    (hid : ∀ t, (F t).id = t.id)
    (hstat : ∀ t, (F t).status = t.status)
    (haltd : ∀ t, (F t).alt_defs = t.alt_defs)
    (hsub : ∀ t d, d ∈ (F t).dependencies → d ∈ t.dependencies)
    (hkeep : ∀ t d, d ≠ tid → d ∈ t.dependencies → d ∈ (F t).dependencies)
    (hcdtid : completed_dep s tid = true)
    (hInv : Inv s) :
    Inv { s with tasks := s.tasks.map F } ∧
    (∀ x, completed_dep { s with tasks := s.tasks.map F } x = completed_dep s x) := by
  obtain ⟨hT, hE, hC, hA, hN⟩ := hInv
  have hfx : ∀ x, find_task { s with tasks := s.tasks.map F } x
      = (find_task s x).map F := by
    intro x
    show (s.tasks.map F).find? (fun t => t.id == x)
      = (s.tasks.find? (fun t => t.id == x)).map F
    exact find?_map_id_pres hid x s.tasks
  have hcd : ∀ x, completed_dep { s with tasks := s.tasks.map F } x
      = completed_dep s x := by
    intro x
    unfold completed_dep
    rw [hfx x]
    cases hf : find_task s x with
    | none => rfl
    | some t =>
      show ((F t).status == TaskStatus.completed) = (t.status == TaskStatus.completed)
      rw [hstat]
  refine ⟨⟨?_, ?_, ?_, ?_, ?_⟩, hcd⟩
  · rw [edge_targets_ok, List.all_eq_true]
    intro e he
    have hold := List.all_eq_true.mp hT e he
    show (find_task { s with tasks := s.tasks.map F } e.2).isSome = true
    rw [hfx]
    cases hf : find_task s e.2 with
    | none => rw [hf] at hold; exact absurd hold (by simp)
    | some t => simp
  · rw [edge_deps_ok, List.all_eq_true]
    intro e he
    have hold := List.all_eq_true.mp hE e he
    show (match find_task { s with tasks := s.tasks.map F } e.2 with
      | none => true
      | some t => t.dependencies.contains e.1
          || completed_dep { s with tasks := s.tasks.map F } e.1) = true
    rw [hfx, hcd]
    cases hf : find_task s e.2 with
    | none => simp
    | some t =>
      rw [hf] at hold
      show ((F t).dependencies.contains e.1 || completed_dep s e.1) = true
      rcases Bool.or_eq_true_iff.mp hold with h1 | h1
      · by_cases hx : e.1 = tid
        · rw [hx, hcdtid]
          simp
        · have hm : e.1 ∈ (F t).dependencies :=
            hkeep t e.1 hx (by simpa using h1)
          have : (F t).dependencies.contains e.1 = true := by simpa using hm
          rw [this]
          simp
      · rw [h1]
        simp
  · rw [preds_completed_ok, List.all_eq_true]
    intro e he
    have hold := List.all_eq_true.mp hC e he
    show (match find_task { s with tasks := s.tasks.map F } e.2 with
      | none => true
      | some t =>
        !(t.status == TaskStatus.completed || t.status == TaskStatus.failed)
          || completed_dep { s with tasks := s.tasks.map F } e.1) = true
    rw [hfx, hcd]
    cases hf : find_task s e.2 with
    | none => simp
    | some t =>
      rw [hf] at hold
      show (!((F t).status == TaskStatus.completed || (F t).status == TaskStatus.failed)
        || completed_dep s e.1) = true
      rw [hstat]
      exact hold
  · rw [alts_pending_ok, List.all_eq_true]
    intro t' ht'
    obtain ⟨t, htm, hteq⟩ := List.mem_map.mp ht'
    subst hteq
    have hold := List.all_eq_true.mp hA t htm
    show ((F t).status == TaskStatus.failed
      || (F t).alt_defs.all (fun a => a.status == TaskStatus.pending)) = true
    rw [haltd, hstat]
    exact hold
  · have : w_ids { s with tasks := s.tasks.map F } = w_ids s := by
      unfold w_ids
      show (s.tasks.map F).flatMap _ = s.tasks.flatMap _
      rw [List.flatMap_map]
      refine flatMap_congr_mem (fun t _ => ?_)
      show (F t).id :: (if (F t).status == TaskStatus.failed then []
          else (F t).alt_defs.map MTask.id)
        = t.id :: (if t.status == TaskStatus.failed then [] else t.alt_defs.map MTask.id)
      rw [hid, haltd, hstat]
    rw [this]
    exact hN

/-- Readiness of a task transfers along a state change that keeps its
status, only shrinks its dependency list, and keeps satisfied
dependencies satisfied. -/
theorem ready_transfer {s s' : MState} {y : String}
    (hcd : ∀ x, completed_dep s x = true → completed_dep s' x = true)
    (hfp : ∀ t, find_task s y = some t → ∃ t', find_task s' y = some t' ∧
      t'.status = t.status ∧ ∀ d ∈ t'.dependencies, d ∈ t.dependencies)
    (hready : ready_id s y = true) : ready_id s' y = true := by
  obtain ⟨t, hf, hp, hdm⟩ := ready_id_elim hready
  obtain ⟨t', hf', hst, hsubd⟩ := hfp t hf
  unfold ready_id
  rw [hf']
  show ready_task s' t' = true
  unfold ready_task
  rw [hst, hp]
  rw [deps_met_eq] at hdm
  rw [List.all_eq_true] at hdm
  rw [deps_met_eq, Bool.and_eq_true, List.all_eq_true]
  exact ⟨rfl, fun d hd => hcd d (hdm d (hsubd d hd))⟩

/-- A FAILED or SKIPPED task stays so along a state change that keeps
its status or moves it to SKIPPED. -/
theorem halted_transfer {s s' : MState} {g : String}
    (hfp : ∀ t, find_task s g = some t → ∃ t', find_task s' g = some t' ∧
      (t'.status = t.status ∨ t'.status = TaskStatus.skipped))
    (h : halted s g = true) : halted s' g = true := by
  unfold halted at h ⊢
  cases hf : find_task s g with
  | none => rw [hf] at h; exact absurd h (by simp)
  | some t =>
    rw [hf] at h
    obtain ⟨t', hf', hst⟩ := hfp t hf
    rw [hf']
    show (t'.status == TaskStatus.failed || t'.status == TaskStatus.skipped) = true
    rcases hst with h1 | h1
    · rw [h1]
      exact h
    · rw [h1]
      simp

theorem cd_false_of_pending {s : MState} {tid : String} {tc : MTask}
    (hfind : find_task s tid = some tc) (hpend : tc.status = TaskStatus.pending) :
    completed_dep s tid = false := by
  unfold completed_dep
  rw [hfind]
  show (tc.status == TaskStatus.completed) = false
  rw [hpend]
  rfl

theorem successors_mem {s : MState} {tid u : String}
    (h : u ∈ successors s tid) : (tid, u) ∈ s.edges := by
  unfold successors at h
  obtain ⟨e, he, heq⟩ := List.mem_map.mp h
  have hf := List.mem_filter.mp he
  have h1 : e.1 = tid := by simpa using hf.2
  have : e = (tid, u) := by
    cases e
    simp only at h1 heq
    rw [h1, heq]
  rw [← this]
  exact hf.1

/-- A ready task is never a graph successor of a (different or equal)
ready task: the edge would put the pending source in its dependency
list, contradicting that its dependencies are met. -/
theorem ready_not_successor {s : MState} {tid y : String} {tc ty : MTask}
    (hE : edge_deps_ok s = true)
    (hfind : find_task s tid = some tc) (hpend : tc.status = TaskStatus.pending)
    (hfy : find_task s y = some ty) (hdmy : deps_met s ty = true) :
    y ∉ successors s tid := by
  intro hmem
  have hedge : (tid, y) ∈ s.edges := successors_mem hmem
  have hcl := List.all_eq_true.mp hE (tid, y) hedge
  simp only at hcl
  rw [hfy] at hcl
  have hcdtid : completed_dep s tid = false := cd_false_of_pending hfind hpend
  have hdep : tid ∈ ty.dependencies := by
    rcases Bool.or_eq_true_iff.mp hcl with h1 | h1
    · simpa using h1
    · rw [hcdtid] at h1
      exact absurd h1 (by simp)
  rw [deps_met_eq, List.all_eq_true] at hdmy
  have := hdmy tid hdep
  rw [hcdtid] at this
  exact absurd this (by simp)

/-- Graph successors of a ready task are neither COMPLETED nor FAILED
(else the pending source would count as a completed dependency). -/
theorem succ_not_CF {s : MState} {tid : String} {tc : MTask}
    (hC : preds_completed_ok s = true)
    (hfind : find_task s tid = some tc) (hpend : tc.status = TaskStatus.pending) :
    ∀ u ∈ successors s tid, ∀ t, find_task s u = some t →
    t.status ≠ TaskStatus.completed ∧ t.status ≠ TaskStatus.failed := by
  intro u hu t hft
  have hedge : (tid, u) ∈ s.edges := successors_mem hu
  have hcl := List.all_eq_true.mp hC (tid, u) hedge
  simp only at hcl
  rw [hft] at hcl
  have hcdtid : completed_dep s tid = false := cd_false_of_pending hfind hpend
  rw [hcdtid] at hcl
  have hnb : (!(t.status == TaskStatus.completed || t.status == TaskStatus.failed))
      = true := by
    rcases Bool.or_eq_true_iff.mp hcl with h1 | h1
    · exact h1
    · exact absurd h1 (by simp)
  constructor
  · intro hc
    rw [hc] at hnb
    exact absurd hnb (by simp)
  · intro hc
    rw [hc] at hnb
    exact absurd hnb (by simp)

theorem find_task_of_mem {s : MState} {t : MTask}
    (hN : (w_ids s).Nodup) (ht : t ∈ s.tasks) : find_task s t.id = some t := by
  cases hf : find_task s t.id with
  | none =>
    have := List.find?_eq_none.mp hf t ht
    exact absurd (by simp : (t.id == t.id) = true) this
  | some u =>
    have : t = u := mem_id_unique hN hf ht rfl
    rw [this]

theorem find_task_set_status_ne (s : MState) (tid : String) (st : TaskStatus)
    (y : String) (hy : y ≠ tid) :
    find_task (set_status s tid st) y = find_task s y := by
  rw [find_task_set_status_eq]
  cases hf : find_task s y with
  | none => rfl
  | some t =>
    have hty : t.id = y := find_task_some_id hf
    show some (if t.id == tid then t.with_status st else t) = some t
    rw [if_neg (by simp [hty, hy])]

theorem halted_eq_of_find_eq {s1 s2 : MState} {g : String}
    (h : find_task s1 g = find_task s2 g) : halted s1 g = halted s2 g := by
  unfold halted
  rw [h]

/-- Value of `_handle_failure` under the `retry` strategy. -/
theorem handle_failure_eq_retry (s : MState) (t : MTask)
    (h : t.failure_strategy = "retry") :
    handle_failure s t
      = { set_status { set_status s t.id TaskStatus.failed with
            failed_res := (set_status s t.id TaskStatus.failed).failed_res ++ [t.id] }
          t.id TaskStatus.pending with
          queue_heap := (set_status { set_status s t.id TaskStatus.failed with
            failed_res := (set_status s t.id TaskStatus.failed).failed_res ++ [t.id] }
          t.id TaskStatus.pending).queue_heap ++ [(-t.priority, t.id)] } := by
  unfold handle_failure
  rw [h]
  rfl

/-- Value of `_handle_failure` under the `skip_dependent` strategy. -/
theorem handle_failure_eq_skip (s : MState) (t : MTask)
    (h : t.failure_strategy = "skip_dependent") :
    handle_failure s t
      = (successors { set_status s t.id TaskStatus.failed with
            failed_res := (set_status s t.id TaskStatus.failed).failed_res ++ [t.id] }
          t.id).foldl (fun s u =>
            let s := set_status s u TaskStatus.skipped
            { s with skipped_res := s.skipped_res ++ [u] })
          { set_status s t.id TaskStatus.failed with
            failed_res := (set_status s t.id TaskStatus.failed).failed_res ++ [t.id] } := by
  unfold handle_failure
  rw [h]
  rfl

/-- Value of `_handle_failure` under the `alternate` strategy with a
configured alternate task. -/
theorem handle_failure_eq_alt_some (s : MState) (t alt : MTask)
    (h : t.failure_strategy = "alternate") (ha : t.alternate_task = some alt) :
    handle_failure s t
      = tm_add_task { set_status s t.id TaskStatus.failed with
          failed_res := (set_status s t.id TaskStatus.failed).failed_res ++ [t.id] } alt := by
  unfold handle_failure
  rw [h, ha]
  rfl

/-- Value of `_handle_failure` under the `alternate` strategy without an
alternate task. -/
theorem handle_failure_eq_alt_none (s : MState) (t : MTask)
    (h : t.failure_strategy = "alternate") (ha : t.alternate_task = none) :
    handle_failure s t
      = { set_status s t.id TaskStatus.failed with
          failed_res := (set_status s t.id TaskStatus.failed).failed_res ++ [t.id] } := by
  unfold handle_failure
  rw [h, ha]
  rfl

/-- Value of `_handle_failure` under any other strategy string. -/
theorem handle_failure_eq_other (s : MState) (t : MTask)
    (h1 : (t.failure_strategy == "retry") = false)
    (h2 : (t.failure_strategy == "skip_dependent") = false)
    (h3 : (t.failure_strategy == "alternate") = false) :
    handle_failure s t
      = { set_status s t.id TaskStatus.failed with
          failed_res := (set_status s t.id TaskStatus.failed).failed_res ++ [t.id] } := by
  unfold handle_failure
  rw [h1, h2, h3]
  rfl

/-- The two status writes of the retry path collapse to one write at
the task-list level. -/
theorem retry_tasks_eq (s : MState) (tid : String) :
    (set_status { set_status s tid TaskStatus.failed with
        failed_res := (set_status s tid TaskStatus.failed).failed_res ++ [tid] }
      tid TaskStatus.pending).tasks
    = (set_status s tid TaskStatus.pending).tasks := by
  show (s.tasks.map (fun t => if t.id == tid then t.with_status TaskStatus.failed else t)).map
      (fun t => if t.id == tid then t.with_status TaskStatus.pending else t)
    = s.tasks.map (fun t => if t.id == tid then t.with_status TaskStatus.pending else t)
  rw [List.map_map]
  refine congrArg (fun f => s.tasks.map f) (funext fun t => ?_)
  show (if (if t.id == tid then t.with_status TaskStatus.failed else t).id == tid then
      (if t.id == tid then t.with_status TaskStatus.failed else t).with_status
        TaskStatus.pending
    else if t.id == tid then t.with_status TaskStatus.failed else t)
    = if t.id == tid then t.with_status TaskStatus.pending else t
  by_cases h : t.id = tid
  · rw [if_pos (by simp [h]), if_pos (by simp [MTask.with_status_id, h]),
      MTask.with_status_with_status, if_pos (by simp [h])]
  · rw [if_neg (by simp [h]), if_neg (by simp [h]), if_neg (by simp [h])]

/-- Invariant facts for any state whose tasks are the failed-status
write of a ready task (the record updates of `_handle_failure` leave
tasks and edges alone). -/
theorem failed_record_preserves (s S : MState) (tid : String) (tc : MTask)
    (hInv : Inv s) (hfind : find_task s tid = some tc)
    (hpend : tc.status = TaskStatus.pending) (hdm : deps_met s tc = true)
    (hts : S.tasks = (set_status s tid TaskStatus.failed).tasks)
    (hes : S.edges = s.edges) :
    Inv S ∧ (∀ x, completed_dep S x = completed_dep s x) ∧
    (∀ x, find_task S x = (find_task s x).map
      (fun t => if t.id == tid then t.with_status TaskStatus.failed else t)) := by
  obtain ⟨hI1, hcd1, hed1⟩ := set_failed_preserves s tid tc hInv hfind hpend hdm
  refine ⟨inv_ext hts (hes.trans (set_status_edges s tid TaskStatus.failed).symm) hI1,
    fun x => (completed_dep_ext hts x).trans (hcd1 x),
    fun x => (find_task_ext hts x).trans (find_task_set_status_eq s tid TaskStatus.failed x)⟩

/-- Invariant facts for any state whose tasks are the skip-cascade fold
of `_handle_failure` over ids of tasks that are neither COMPLETED nor
FAILED. -/
theorem skip_fold_preserves (s S : MState) (us : List String)
    (hInv : Inv s)
    (hok : ∀ u ∈ us, ∀ t, find_task s u = some t →
      t.status ≠ TaskStatus.completed ∧ t.status ≠ TaskStatus.failed)
    (hts : S.tasks = s.tasks.map (fun t => us.foldl
      (fun t u => if t.id == u then t.with_status TaskStatus.skipped else t) t))
    (hes : S.edges = s.edges) :
    Inv S ∧ (∀ x, completed_dep S x = completed_dep s x) ∧
    (∀ x, find_task S x = (find_task s x).map (fun t => us.foldl
      (fun t u => if t.id == u then t.with_status TaskStatus.skipped else t) t)) := by
  have hN := hInv.2.2.2.2
  obtain ⟨hIM, hcdM⟩ := map_nc_preserves s
    (fun t => us.foldl
      (fun t u => if t.id == u then t.with_status TaskStatus.skipped else t) t)
    (task_fold_skip_id us) (task_fold_skip_deps us) (task_fold_skip_alt_defs us)
    (by
      intro t htm
      rw [task_fold_skip_status]
      by_cases hm : t.id ∈ us
      · right
        obtain ⟨hnc, hnf⟩ := hok t.id hm t (find_task_of_mem hN htm)
        rw [if_pos hm]
        exact ⟨⟨by decide, by decide⟩, hnc, hnf⟩
      · left
        rw [if_neg hm])
    hInv
  refine ⟨?_, fun x => (completed_dep_ext hts x).trans (hcdM x), ?_⟩
  · refine inv_ext ?_ ?_ hIM
    · exact hts
    · exact hes
  · intro x
    show S.tasks.find? (fun t => t.id == x) = _
    rw [hts]
    exact find?_map_id_pres (task_fold_skip_id us) x s.tasks

/-- Full effect of `_handle_failure` under `skip_dependent` on a ready
failing task: the task is FAILED and recorded, every direct graph
successor is SKIPPED and recorded, nothing else changes status, and the
invariant holds afterwards. -/
theorem handle_failure_skip_preserves (s : MState) (tid : String) (tc : MTask)
    (hInv : Inv s) (hfind : find_task s tid = some tc)
    (hpend : tc.status = TaskStatus.pending) (hdm : deps_met s tc = true)
    (hstrat : tc.failure_strategy = "skip_dependent") :
    Inv (handle_failure s tc) ∧
    (∀ x, completed_dep (handle_failure s tc) x = completed_dep s x) ∧
    (handle_failure s tc).edges = s.edges ∧
    (handle_failure s tc).trace = s.trace ∧
    (handle_failure s tc).skipped_res = s.skipped_res ++ successors s tid ∧
    (handle_failure s tc).failed_res = s.failed_res ++ [tid] ∧
    (∃ t1, find_task (handle_failure s tc) tid = some t1 ∧
      t1.status = TaskStatus.failed) ∧
    (∀ u ∈ successors s tid, ∃ t2, find_task (handle_failure s tc) u = some t2 ∧
      t2.status = TaskStatus.skipped) ∧
    (∀ g, g ≠ tid → halted s g = true → halted (handle_failure s tc) g = true) ∧
    (∀ y, y ≠ tid → ready_id s y = true → ready_id (handle_failure s tc) y = true) := by
  obtain ⟨hT, hE, hC, hA, hN⟩ := hInv
  have hid : tc.id = tid := find_task_some_id hfind
  have htidnem : tid ∉ successors s tid :=
    ready_not_successor hE hfind hpend hfind hdm
  rw [handle_failure_eq_skip s tc hstrat, hid]
  have hsucc : successors { set_status s tid TaskStatus.failed with
      failed_res := (set_status s tid TaskStatus.failed).failed_res ++ [tid] } tid
      = successors s tid := rfl
  rw [hsucc]
  obtain ⟨hIF, hcdF, hfxF⟩ := failed_record_preserves s
    { set_status s tid TaskStatus.failed with
      failed_res := (set_status s tid TaskStatus.failed).failed_res ++ [tid] }
    tid tc ⟨hT, hE, hC, hA, hN⟩ hfind hpend hdm rfl rfl
  have hok : ∀ u ∈ successors s tid, ∀ t,
      find_task { set_status s tid TaskStatus.failed with
        failed_res := (set_status s tid TaskStatus.failed).failed_res ++ [tid] } u
        = some t →
      t.status ≠ TaskStatus.completed ∧ t.status ≠ TaskStatus.failed := by
    intro u hu t hft
    have hune : u ≠ tid := fun h => htidnem (h ▸ hu)
    rw [hfxF] at hft
    cases hf0 : find_task s u with
    | none => rw [hf0] at hft; exact absurd hft (by simp)
    | some t0 =>
      rw [hf0] at hft
      have ht0 : t0.id = u := find_task_some_id hf0
      have : (if t0.id == tid then t0.with_status TaskStatus.failed else t0) = t := by
        simpa using hft
      rw [if_neg (by simp [ht0, hune])] at this
      rw [← this]
      exact succ_not_CF hC hfind hpend u hu t0 hf0
  obtain ⟨hIB, hcdB, hfxB⟩ := skip_fold_preserves
    { set_status s tid TaskStatus.failed with
      failed_res := (set_status s tid TaskStatus.failed).failed_res ++ [tid] }
    ((successors s tid).foldl (fun s u =>
        let s := set_status s u TaskStatus.skipped
        { s with skipped_res := s.skipped_res ++ [u] })
      { set_status s tid TaskStatus.failed with
        failed_res := (set_status s tid TaskStatus.failed).failed_res ++ [tid] })
    (successors s tid) hIF hok
    (tasks_fold_skip (successors s tid) _)
    (fold_skip_edges (successors s tid) _)
  have hfall : ∀ x, find_task ((successors s tid).foldl (fun s u =>
      let s := set_status s u TaskStatus.skipped
      { s with skipped_res := s.skipped_res ++ [u] })
      { set_status s tid TaskStatus.failed with
        failed_res := (set_status s tid TaskStatus.failed).failed_res ++ [tid] }) x
      = ((find_task s x).map
          (fun t => if t.id == tid then t.with_status TaskStatus.failed else t)).map
        (fun t => (successors s tid).foldl
          (fun t u => if t.id == u then t.with_status TaskStatus.skipped else t) t) := by
    intro x
    rw [hfxB, hfxF]
  refine ⟨hIB, fun x => (hcdB x).trans (hcdF x),
    (fold_skip_edges (successors s tid) _).trans rfl,
    (fold_skip_trace (successors s tid) _).trans rfl,
    (fold_skip_skipped_res (successors s tid) _).trans rfl,
    (fold_skip_failed_res (successors s tid) _).trans rfl, ?_, ?_, ?_, ?_⟩
  · refine ⟨(successors s tid).foldl
      (fun t u => if t.id == u then t.with_status TaskStatus.skipped else t)
      (tc.with_status TaskStatus.failed), ?_, ?_⟩
    · rw [hfall, hfind]
      simp only [Option.map_some']
      rw [if_pos (by simp [hid])]
    · rw [task_fold_skip_status,
        if_neg (by rw [MTask.with_status_id, hid]; exact htidnem),
        MTask.with_status_status]
  · intro u hu
    have hune : u ≠ tid := fun h => htidnem (h ▸ hu)
    have hedge : (tid, u) ∈ s.edges := successors_mem hu
    have hsome := List.all_eq_true.mp hT (tid, u) hedge
    simp only at hsome
    obtain ⟨t0, hf0⟩ := Option.isSome_iff_exists.mp hsome
    have ht0 : t0.id = u := find_task_some_id hf0
    refine ⟨(successors s tid).foldl
      (fun t u => if t.id == u then t.with_status TaskStatus.skipped else t) t0, ?_, ?_⟩
    · rw [hfall, hf0]
      simp only [Option.map_some']
      rw [if_neg (by simp [ht0, hune])]
    · rw [task_fold_skip_status, if_pos (by rw [ht0]; exact hu)]
  · intro g hg hh
    refine halted_transfer (fun t hft => ?_) hh
    refine ⟨(successors s tid).foldl
      (fun t u => if t.id == u then t.with_status TaskStatus.skipped else t) t, ?_, ?_⟩
    · rw [hfall, hft]
      simp only [Option.map_some']
      rw [if_neg (by simp [find_task_some_id hft, hg])]
    · rw [task_fold_skip_status]
      by_cases hm : t.id ∈ successors s tid
      · rw [if_pos hm]
        right
        rfl
      · rw [if_neg hm]
        left
        rfl
  · intro y hy hr
    obtain ⟨ty, hfy, hpy, hdmy⟩ := ready_id_elim hr
    have hynem : y ∉ successors s tid :=
      ready_not_successor hE hfind hpend hfy hdmy
    refine ready_transfer (fun x hx => by rw [(hcdB x).trans (hcdF x)]; exact hx)
      (fun t hft => ?_) hr
    refine ⟨(successors s tid).foldl
      (fun t u => if t.id == u then t.with_status TaskStatus.skipped else t) t, ?_, ?_, ?_⟩
    · rw [hfall, hft]
      simp only [Option.map_some']
      rw [if_neg (by simp [find_task_some_id hft, hy])]
    · rw [task_fold_skip_status,
        if_neg (by rw [find_task_some_id hft]; exact hynem)]
    · intro d hd
      rw [task_fold_skip_deps] at hd
      exact hd

/-- Invariant facts for any state whose tasks carry one status write
moving a ready-range task between non-COMPLETED, non-FAILED statuses
(the SKIPPED write of the no-agent path; the net effect of the retry
reset). -/
theorem nc_record_preserves (s S : MState) (tid : String) (tc : MTask) (st : TaskStatus)
    (hInv : Inv s) (hfind : find_task s tid = some tc)
    (hnc : tc.status ≠ TaskStatus.completed) (hnf : tc.status ≠ TaskStatus.failed)
    (hstnc : st ≠ TaskStatus.completed) (hstnf : st ≠ TaskStatus.failed)
    (hts : S.tasks = (set_status s tid st).tasks)
    (hes : S.edges = s.edges) :
    Inv S ∧ (∀ x, completed_dep S x = completed_dep s x) ∧
    (∀ x, find_task S x = (find_task s x).map
      (fun t => if t.id == tid then t.with_status st else t)) := by
  obtain ⟨hI1, hcd1, _⟩ := set_nc_preserves s tid tc st hInv hfind hnc hnf hstnc hstnf
  refine ⟨inv_ext hts (hes.trans (set_status_edges s tid st).symm) hI1,
    fun x => (completed_dep_ext hts x).trans (hcd1 x),
    fun x => (find_task_ext hts x).trans (find_task_set_status_eq s tid st x)⟩

theorem halted_pres_of_find_ite {s S : MState} {tid : String} {st : TaskStatus}
    (hfx : ∀ x, find_task S x = (find_task s x).map
      (fun t => if t.id == tid then t.with_status st else t))
    (g : String) (hg : g ≠ tid) (hh : halted s g = true) : halted S g = true := by
  refine halted_transfer (fun t hft => ⟨t, ?_, Or.inl rfl⟩) hh
  rw [hfx, hft]
  simp only [Option.map_some']
  rw [if_neg (by simp [find_task_some_id hft, hg])]

theorem ready_pres_of_find_ite {s S : MState} {tid : String} {st : TaskStatus}
    (hfx : ∀ x, find_task S x = (find_task s x).map
      (fun t => if t.id == tid then t.with_status st else t))
    (hcd : ∀ x, completed_dep s x = true → completed_dep S x = true)
    (y : String) (hy : y ≠ tid) (hr : ready_id s y = true) : ready_id S y = true := by
  refine ready_transfer hcd (fun t hft => ⟨t, ?_, rfl, fun d hd => hd⟩) hr
  rw [hfx, hft]
  simp only [Option.map_some']
  rw [if_neg (by simp [find_task_some_id hft, hy])]

/-- Zeta-expanded value of `_handle_completion`. -/
theorem handle_completion_eq (s : MState) (tid : String) :
    handle_completion s tid
      = (successors { set_status s tid TaskStatus.completed with
            completed_res := (set_status s tid TaskStatus.completed).completed_res ++ [tid] }
          tid).foldl (fun s u =>
            let s := remove_dep s u tid
            match find_task s u with
            | some ut =>
              if ut.is_ready then { s with queue_heap := s.queue_heap ++ [(-ut.priority, u)] }
              else s
            | none => s)
          { set_status s tid TaskStatus.completed with
            completed_res := (set_status s tid TaskStatus.completed).completed_res ++ [tid] } := by
  unfold handle_completion
  rfl

/-- Full effect of `_handle_completion` on a ready completing task:
invariant preserved, satisfied dependencies stay satisfied, no other
task loses FAILED/SKIPPED status or readiness. -/
theorem handle_completion_preserves (s : MState) (tid : String) (tc : MTask)
    (hInv : Inv s) (hfind : find_task s tid = some tc)
    (hpend : tc.status = TaskStatus.pending) (hdm : deps_met s tc = true) :
    Inv (handle_completion s tid) ∧
    (∀ x, completed_dep s x = true → completed_dep (handle_completion s tid) x = true) ∧
    (handle_completion s tid).edges = s.edges ∧
    (handle_completion s tid).trace = s.trace ∧
    (∀ g, g ≠ tid → halted s g = true → halted (handle_completion s tid) g = true) ∧
    (∀ y, y ≠ tid → ready_id s y = true → ready_id (handle_completion s tid) y = true) := by
  obtain ⟨hImid1, hcdmono, hcdtid, hedeq⟩ := set_completed_preserves s tid tc hInv hfind hpend hdm
  rw [handle_completion_eq]
  have hImid : Inv { set_status s tid TaskStatus.completed with
      completed_res := (set_status s tid TaskStatus.completed).completed_res ++ [tid] } := by
    refine inv_ext ?_ ?_ hImid1
    · exact rfl
    · exact rfl
  have hcdmid : ∀ x, completed_dep { set_status s tid TaskStatus.completed with
      completed_res := (set_status s tid TaskStatus.completed).completed_res ++ [tid] } x
      = completed_dep (set_status s tid TaskStatus.completed) x := by
    intro x
    refine completed_dep_ext ?_ x
    exact rfl
  have hfmid : ∀ x, find_task { set_status s tid TaskStatus.completed with
      completed_res := (set_status s tid TaskStatus.completed).completed_res ++ [tid] } x
      = (find_task s x).map
        (fun t => if t.id == tid then t.with_status TaskStatus.completed else t) := by
    intro x
    refine Eq.trans ?_ (find_task_set_status_eq s tid TaskStatus.completed x)
    refine find_task_ext ?_ x
    exact rfl
  obtain ⟨hIMm, hcdMm⟩ := map_rm_preserves
    { set_status s tid TaskStatus.completed with
      completed_res := (set_status s tid TaskStatus.completed).completed_res ++ [tid] }
    (fun t => (successors { set_status s tid TaskStatus.completed with
        completed_res := (set_status s tid TaskStatus.completed).completed_res ++ [tid] }
      tid).foldl (fun t u => if t.id == u then t.erase_dep tid else t) t)
    tid (task_fold_rm_id tid _) (task_fold_rm_status tid _) (task_fold_rm_alt_defs tid _)
    (task_fold_rm_deps_sub tid _) (task_fold_rm_deps_keep tid _)
    ((hcdmid tid).trans hcdtid) hImid
  have htsB := tasks_fold_remove tid
    (successors { set_status s tid TaskStatus.completed with
      completed_res := (set_status s tid TaskStatus.completed).completed_res ++ [tid] } tid)
    { set_status s tid TaskStatus.completed with
      completed_res := (set_status s tid TaskStatus.completed).completed_res ++ [tid] }
  have hesB := fold_remove_edges tid
    (successors { set_status s tid TaskStatus.completed with
      completed_res := (set_status s tid TaskStatus.completed).completed_res ++ [tid] } tid)
    { set_status s tid TaskStatus.completed with
      completed_res := (set_status s tid TaskStatus.completed).completed_res ++ [tid] }
  have hIB : Inv ((successors { set_status s tid TaskStatus.completed with
      completed_res := (set_status s tid TaskStatus.completed).completed_res ++ [tid] }
      tid).foldl (fun s u =>
        let s := remove_dep s u tid
        match find_task s u with
        | some ut =>
          if ut.is_ready then { s with queue_heap := s.queue_heap ++ [(-ut.priority, u)] }
          else s
        | none => s)
      { set_status s tid TaskStatus.completed with
        completed_res := (set_status s tid TaskStatus.completed).completed_res ++ [tid] }) := by
    refine inv_ext ?_ ?_ hIMm
    · exact htsB
    · exact hesB
  have hcdB : ∀ x, completed_dep ((successors { set_status s tid TaskStatus.completed with
      completed_res := (set_status s tid TaskStatus.completed).completed_res ++ [tid] }
      tid).foldl (fun s u =>
        let s := remove_dep s u tid
        match find_task s u with
        | some ut =>
          if ut.is_ready then { s with queue_heap := s.queue_heap ++ [(-ut.priority, u)] }
          else s
        | none => s)
      { set_status s tid TaskStatus.completed with
        completed_res := (set_status s tid TaskStatus.completed).completed_res ++ [tid] }) x
      = completed_dep s x ∨ True := fun _ => Or.inr trivial
  have hcdBmono : ∀ x, completed_dep s x = true →
      completed_dep ((successors { set_status s tid TaskStatus.completed with
        completed_res := (set_status s tid TaskStatus.completed).completed_res ++ [tid] }
        tid).foldl (fun s u =>
          let s := remove_dep s u tid
          match find_task s u with
          | some ut =>
            if ut.is_ready then { s with queue_heap := s.queue_heap ++ [(-ut.priority, u)] }
            else s
          | none => s)
        { set_status s tid TaskStatus.completed with
          completed_res := (set_status s tid TaskStatus.completed).completed_res ++ [tid] }) x
        = true := by
    intro x hx
    have h1 := (completed_dep_ext (by exact htsB) x).trans (hcdMm x)
    rw [h1, hcdmid x]
    exact hcdmono x hx
  have hfB : ∀ x, find_task ((successors { set_status s tid TaskStatus.completed with
      completed_res := (set_status s tid TaskStatus.completed).completed_res ++ [tid] }
      tid).foldl (fun s u =>
        let s := remove_dep s u tid
        match find_task s u with
        | some ut =>
          if ut.is_ready then { s with queue_heap := s.queue_heap ++ [(-ut.priority, u)] }
          else s
        | none => s)
      { set_status s tid TaskStatus.completed with
        completed_res := (set_status s tid TaskStatus.completed).completed_res ++ [tid] }) x
      = ((find_task s x).map
          (fun t => if t.id == tid then t.with_status TaskStatus.completed else t)).map
        (fun t => (successors { set_status s tid TaskStatus.completed with
            completed_res := (set_status s tid TaskStatus.completed).completed_res ++ [tid] }
          tid).foldl (fun t u => if t.id == u then t.erase_dep tid else t) t) := by
    intro x
    rw [find_task_fold_remove, hfmid]
  refine ⟨hIB, hcdBmono, hesB.trans rfl, (fold_remove_trace tid _ _).trans rfl, ?_, ?_⟩
  · intro g hg hh
    refine halted_transfer (fun t hft => ?_) hh
    refine ⟨(successors { set_status s tid TaskStatus.completed with
        completed_res := (set_status s tid TaskStatus.completed).completed_res ++ [tid] }
      tid).foldl (fun t u => if t.id == u then t.erase_dep tid else t) t, ?_, Or.inl ?_⟩
    · rw [hfB, hft]
      simp only [Option.map_some']
      rw [if_neg (by simp [find_task_some_id hft, hg])]
    · rw [task_fold_rm_status]
  · intro y hy hr
    refine ready_transfer hcdBmono (fun t hft => ?_) hr
    refine ⟨(successors { set_status s tid TaskStatus.completed with
        completed_res := (set_status s tid TaskStatus.completed).completed_res ++ [tid] }
      tid).foldl (fun t u => if t.id == u then t.erase_dep tid else t) t, ?_, ?_, ?_⟩
    · rw [hfB, hft]
      simp only [Option.map_some']
      rw [if_neg (by simp [find_task_some_id hft, hy])]
    · rw [task_fold_rm_status]
    · exact fun d hd => task_fold_rm_deps_sub tid _ t d hd

/-- Full effect of `_handle_failure` under `retry` on a ready failing
task: net status write back to PENDING plus a queue/record update. -/
theorem handle_failure_retry_preserves (s : MState) (tid : String) (tc : MTask)
    (hInv : Inv s) (hfind : find_task s tid = some tc)
    (hpend : tc.status = TaskStatus.pending) (hdm : deps_met s tc = true)
    (hstrat : tc.failure_strategy = "retry") :
    Inv (handle_failure s tc) ∧
    (∀ x, completed_dep (handle_failure s tc) x = completed_dep s x) ∧
    (handle_failure s tc).edges = s.edges ∧
    (handle_failure s tc).trace = s.trace ∧
    (∀ g, g ≠ tid → halted s g = true → halted (handle_failure s tc) g = true) ∧
    (∀ y, y ≠ tid → ready_id s y = true → ready_id (handle_failure s tc) y = true) := by
  have hid : tc.id = tid := find_task_some_id hfind
  rw [handle_failure_eq_retry s tc hstrat, hid]
  obtain ⟨hIS, hcdS, hfxS⟩ := nc_record_preserves s
    { set_status { set_status s tid TaskStatus.failed with
        failed_res := (set_status s tid TaskStatus.failed).failed_res ++ [tid] }
      tid TaskStatus.pending with
      queue_heap := (set_status { set_status s tid TaskStatus.failed with
        failed_res := (set_status s tid TaskStatus.failed).failed_res ++ [tid] }
      tid TaskStatus.pending).queue_heap ++ [(-tc.priority, tid)] }
    tid tc TaskStatus.pending hInv hfind
    (by rw [hpend]; decide) (by rw [hpend]; decide) (by decide) (by decide)
    (by exact retry_tasks_eq s tid) rfl
  exact ⟨hIS, hcdS, rfl, rfl,
    fun g hg hh => halted_pres_of_find_ite hfxS g hg hh,
    fun y hy hr => ready_pres_of_find_ite hfxS
      (fun x hx => by rw [hcdS x]; exact hx) y hy hr⟩

/-- Full effect of `_handle_failure` when the strategy only fails and
records the task (unknown strategy, or `alternate` with no alternate
configured). -/
theorem failed_only_preserves (s : MState) (tid : String) (tc : MTask)
    (hInv : Inv s) (hfind : find_task s tid = some tc)
    (hpend : tc.status = TaskStatus.pending) (hdm : deps_met s tc = true) :
    Inv { set_status s tid TaskStatus.failed with
      failed_res := (set_status s tid TaskStatus.failed).failed_res ++ [tid] } ∧
    (∀ x, completed_dep { set_status s tid TaskStatus.failed with
      failed_res := (set_status s tid TaskStatus.failed).failed_res ++ [tid] } x
      = completed_dep s x) ∧
    (∀ g, g ≠ tid → halted s g = true → halted { set_status s tid TaskStatus.failed with
      failed_res := (set_status s tid TaskStatus.failed).failed_res ++ [tid] } g = true) ∧
    (∀ y, y ≠ tid → ready_id s y = true → ready_id { set_status s tid TaskStatus.failed with
      failed_res := (set_status s tid TaskStatus.failed).failed_res ++ [tid] } y = true) := by
  obtain ⟨hIS, hcdS, hfxS⟩ := failed_record_preserves s
    { set_status s tid TaskStatus.failed with
      failed_res := (set_status s tid TaskStatus.failed).failed_res ++ [tid] }
    tid tc hInv hfind hpend hdm rfl rfl
  exact ⟨hIS, hcdS,
    fun g hg hh => halted_pres_of_find_ite hfxS g hg hh,
    fun y hy hr => ready_pres_of_find_ite hfxS
      (fun x hx => by rw [hcdS x]; exact hx) y hy hr⟩

theorem MTask.alt_defs_eq_cons {t a : MTask} (h : t.alternate_task = some a) :
    t.alt_defs = a :: a.alt_defs := by
  cases t with
  | mk i d st f p o =>
    cases o with
    | none => exact absurd h (by simp [MTask.alternate_task])
    | some b =>
      have hba : b = a := by simpa [MTask.alternate_task] using h
      rw [MTask.alt_defs, hba]

theorem mem_add_edge_of_mem {es : List (String × String)} {e p : String × String}
    (h : e ∈ es) : e ∈ add_edge_m es p := by
  unfold add_edge_m
  by_cases hc : es.contains p
  · rw [if_pos hc]
    exact h
  · rw [if_neg hc]
    exact List.mem_append_left _ h

theorem mem_add_edge_elim {es : List (String × String)} {e p : String × String}
    (h : e ∈ add_edge_m es p) : e ∈ es ∨ e = p := by
  unfold add_edge_m at h
  by_cases hc : es.contains p
  · rw [if_pos hc] at h
    exact Or.inl h
  · rw [if_neg hc] at h
    rcases List.mem_append.mp h with h1 | h1
    · exact Or.inl h1
    · exact Or.inr (by simpa using h1)

theorem mem_fold_add_of_mem (n : String) :
    ∀ (l : List String) (es : List (String × String)) (e : String × String),
    e ∈ es → e ∈ l.foldl (fun es dep => add_edge_m es (dep, n)) es := by
  intro l
  induction l with
  | nil => intro es e h; exact h
  | cons d ds ih =>
    intro es e h
    rw [List.foldl_cons]
    exact ih _ e (mem_add_edge_of_mem h)

theorem mem_fold_add_elim (n : String) :
    ∀ (l : List String) (es : List (String × String)) (e : String × String),
    e ∈ l.foldl (fun es dep => add_edge_m es (dep, n)) es →
    e ∈ es ∨ ∃ d ∈ l, e = (d, n) := by
  intro l
  induction l with
  | nil => intro es e h; exact Or.inl h
  | cons d ds ih =>
    intro es e h
    rw [List.foldl_cons] at h
    rcases ih _ e h with h1 | ⟨d2, hd2, heq⟩
    · rcases mem_add_edge_elim h1 with h2 | h2
      · exact Or.inl h2
      · exact Or.inr ⟨d, List.mem_cons_self d ds, h2⟩
    · exact Or.inr ⟨d2, List.mem_cons_of_mem d hd2, heq⟩

/-- Field values of `add_task` when the registered id is fresh. -/
theorem tm_add_task_fresh_parts (s : MState) (t : MTask)
    (hfr : s.tasks.any (fun u => u.id == t.id) = false) :
    (tm_add_task s t).tasks = s.tasks ++ [t] ∧
    (tm_add_task s t).edges
      = t.dependencies.foldl (fun es dep => add_edge_m es (dep, t.id)) s.edges ∧
    (tm_add_task s t).trace = s.trace ∧
    (tm_add_task s t).skipped_res = s.skipped_res ∧
    (tm_add_task s t).failed_res = s.failed_res := by
  unfold tm_add_task
  rw [hfr]
  exact ⟨rfl, rfl, rfl, rfl, rfl⟩

/-- Registering a task definition whose ids are fresh (the uuid4 model)
and whose statuses are PENDING preserves the invariant and disturbs no
existing task. -/
theorem tm_add_fresh_preserves (s : MState) (alt : MTask)
    (hInv : Inv s)
    (hpendalt : alt.status = TaskStatus.pending)
    (haltsp : ∀ a ∈ alt.alt_defs, a.status = TaskStatus.pending)
    (hnodup_new : (alt.id :: alt.alt_defs.map MTask.id).Nodup)
    (hdisj : ∀ i ∈ alt.id :: alt.alt_defs.map MTask.id, i ∉ w_ids s) :
    Inv (tm_add_task s alt) ∧
    (∀ x, completed_dep (tm_add_task s alt) x = completed_dep s x) ∧
    (∀ e ∈ s.edges, e ∈ (tm_add_task s alt).edges) ∧
    (∀ x t, find_task s x = some t → find_task (tm_add_task s alt) x = some t) ∧
    (tm_add_task s alt).trace = s.trace := by
  obtain ⟨hT, hE, hC, hA, hN⟩ := hInv
  have hfresh : ∀ t ∈ s.tasks, t.id ≠ alt.id := by
    intro t ht heq
    refine hdisj alt.id (List.mem_cons_self _ _) ?_
    have hmm : t.id ∈ s.tasks.map MTask.id := List.mem_map_of_mem MTask.id ht
    rw [heq] at hmm
    exact (map_id_sublist_w_ids s).subset hmm
  have hany : s.tasks.any (fun u => u.id == alt.id) = false := by
    rw [Bool.eq_false_iff]
    intro hc
    obtain ⟨u, hu, hpu⟩ := List.any_eq_true.mp hc
    exact hfresh u hu (by simpa using hpu)
  obtain ⟨hts, hed, htr, _, _⟩ := tm_add_task_fresh_parts s alt hany
  have hfadd_some : ∀ x u, find_task s x = some u →
      find_task (tm_add_task s alt) x = some u := by
    intro x u h
    show (tm_add_task s alt).tasks.find? (fun t => t.id == x) = some u
    rw [hts]
    exact find?_append_of_some [alt] h
  have hfadd_none : ∀ x, find_task s x = none →
      find_task (tm_add_task s alt) x
        = (if alt.id == x then some alt else none) := by
    intro x h
    show (tm_add_task s alt).tasks.find? (fun t => t.id == x) = _
    rw [hts, find?_append_of_none [alt] h]
    cases hpx : (alt.id == x) with
    | false =>
      rw [List.find?_cons_of_neg _ (by rw [hpx]; simp)]
      simp
    | true =>
      rw [List.find?_cons_of_pos _ (by rw [hpx])]
      simp
  have hfalt : find_task (tm_add_task s alt) alt.id = some alt := by
    cases hf : find_task s alt.id with
    | some u =>
      exact absurd (find_task_some_id hf) (hfresh u (List.mem_of_find?_eq_some hf))
    | none =>
      rw [hfadd_none alt.id hf, if_pos (by simp)]
  have hcd : ∀ x, completed_dep (tm_add_task s alt) x = completed_dep s x := by
    intro x
    unfold completed_dep
    cases hf : find_task s x with
    | some u => rw [hfadd_some x u hf]
    | none =>
      rw [hfadd_none x hf]
      cases hpx : (alt.id == x) with
      | false => simp
      | true =>
        rw [if_pos rfl]
        show (alt.status == TaskStatus.completed) = false
        rw [hpendalt]
        rfl
  refine ⟨⟨?_, ?_, ?_, ?_, ?_⟩, hcd, ?_, hfadd_some, htr⟩
  · rw [edge_targets_ok, List.all_eq_true]
    intro e he
    rw [hed] at he
    show (find_task (tm_add_task s alt) e.2).isSome = true
    rcases mem_fold_add_elim alt.id alt.dependencies s.edges e he with h1 | ⟨d, _, heq⟩
    · have hold := List.all_eq_true.mp hT e h1
      simp only at hold
      obtain ⟨u, hu⟩ := Option.isSome_iff_exists.mp hold
      rw [hfadd_some e.2 u hu]
      rfl
    · rw [heq]
      show (find_task (tm_add_task s alt) alt.id).isSome = true
      rw [hfalt]
      rfl
  · rw [edge_deps_ok, List.all_eq_true]
    intro e he
    rw [hed] at he
    show (match find_task (tm_add_task s alt) e.2 with
      | none => true
      | some t => t.dependencies.contains e.1
          || completed_dep (tm_add_task s alt) e.1) = true
    rcases mem_fold_add_elim alt.id alt.dependencies s.edges e he with h1 | ⟨d, hd, heq⟩
    · have hsome := List.all_eq_true.mp hT e h1
      simp only at hsome
      obtain ⟨u, hu⟩ := Option.isSome_iff_exists.mp hsome
      have hold := List.all_eq_true.mp hE e h1
      rw [hu] at hold
      rw [hfadd_some e.2 u hu, hcd]
      exact hold
    · rw [heq]
      show (match find_task (tm_add_task s alt) alt.id with
        | none => true
        | some t => t.dependencies.contains d
            || completed_dep (tm_add_task s alt) d) = true
      simp only [hfalt]
      have : alt.dependencies.contains d = true := by simpa using hd
      rw [this]
      simp
  · rw [preds_completed_ok, List.all_eq_true]
    intro e he
    rw [hed] at he
    show (match find_task (tm_add_task s alt) e.2 with
      | none => true
      | some t =>
        !(t.status == TaskStatus.completed || t.status == TaskStatus.failed)
          || completed_dep (tm_add_task s alt) e.1) = true
    rcases mem_fold_add_elim alt.id alt.dependencies s.edges e he with h1 | ⟨d, _, heq⟩
    · have hsome := List.all_eq_true.mp hT e h1
      simp only at hsome
      obtain ⟨u, hu⟩ := Option.isSome_iff_exists.mp hsome
      have hold := List.all_eq_true.mp hC e h1
      rw [hu] at hold
      rw [hfadd_some e.2 u hu, hcd]
      exact hold
    · rw [heq]
      show (match find_task (tm_add_task s alt) alt.id with
        | none => true
        | some t =>
          !(t.status == TaskStatus.completed || t.status == TaskStatus.failed)
            || completed_dep (tm_add_task s alt) d) = true
      simp only [hfalt]
      rw [show (alt.status == TaskStatus.completed) = false by rw [hpendalt]; rfl,
        show (alt.status == TaskStatus.failed) = false by rw [hpendalt]; rfl]
      rfl
  · rw [alts_pending_ok, List.all_eq_true]
    intro t ht
    rw [hts] at ht
    rcases List.mem_append.mp ht with h1 | h1
    · exact List.all_eq_true.mp hA t h1
    · have : t = alt := by simpa using h1
      subst this
      have hall : t.alt_defs.all (fun a => a.status == TaskStatus.pending) = true := by
        rw [List.all_eq_true]
        intro a ha
        rw [haltsp a ha]
        rfl
      rw [hall]
      simp
  · have hw : w_ids (tm_add_task s alt)
        = w_ids s ++ (alt.id :: alt.alt_defs.map MTask.id) := by
      unfold w_ids
      rw [hts, List.flatMap_append]
      have : ([alt] : List MTask).flatMap (fun t =>
          t.id :: (if t.status == TaskStatus.failed then []
            else t.alt_defs.map MTask.id))
          = alt.id :: alt.alt_defs.map MTask.id := by
        rw [List.flatMap_cons]
        rw [show (alt.status == TaskStatus.failed) = false by rw [hpendalt]; rfl]
        simp
      rw [this]
    rw [hw]
    rw [List.nodup_append]
    exact ⟨hN, hnodup_new, fun a ha hb => hdisj a hb ha⟩
  · intro e he
    rw [hed]
    exact mem_fold_add_of_mem alt.id alt.dependencies s.edges e he

/-- Full effect of `_handle_failure` under `alternate` with a
configured alternate on a ready failing task: the task fails, the
alternate definition (uuid-fresh by the invariant) is registered, and
nothing else changes status. -/
theorem handle_failure_alt_preserves (s : MState) (tid : String) (tc alt : MTask)
    (hInv : Inv s) (hfind : find_task s tid = some tc)
    (hpend : tc.status = TaskStatus.pending) (hdm : deps_met s tc = true)
    (hstrat : tc.failure_strategy = "alternate") (halt : tc.alternate_task = some alt) :
    Inv (handle_failure s tc) ∧
    (∀ x, completed_dep (handle_failure s tc) x = completed_dep s x) ∧
    (∀ e ∈ s.edges, e ∈ (handle_failure s tc).edges) ∧
    (handle_failure s tc).trace = s.trace ∧
    (∀ g, g ≠ tid → halted s g = true → halted (handle_failure s tc) g = true) ∧
    (∀ y, y ≠ tid → ready_id s y = true → ready_id (handle_failure s tc) y = true) := by
  obtain ⟨hT, hE, hC, hA, hN⟩ := hInv
  have hid : tc.id = tid := find_task_some_id hfind
  rw [handle_failure_eq_alt_some s tc alt hstrat halt, hid]
  obtain ⟨hIF, hcdF, hfxF⟩ := failed_record_preserves s
    { set_status s tid TaskStatus.failed with
      failed_res := (set_status s tid TaskStatus.failed).failed_res ++ [tid] }
    tid tc ⟨hT, hE, hC, hA, hN⟩ hfind hpend hdm rfl rfl
  have hchain : tc.alt_defs = alt :: alt.alt_defs := MTask.alt_defs_eq_cons halt
  have htcm : tc ∈ s.tasks := List.mem_of_find?_eq_some hfind
  have hAcl := List.all_eq_true.mp hA tc htcm
  have hfailF : (tc.status == TaskStatus.failed) = false := by rw [hpend]; rfl
  rw [hfailF, Bool.false_or] at hAcl
  have hall : ∀ a ∈ tc.alt_defs, a.status = TaskStatus.pending := by
    intro a ha
    have := List.all_eq_true.mp hAcl a ha
    simpa using this
  have hpendalt : alt.status = TaskStatus.pending :=
    hall alt (by rw [hchain]; exact List.mem_cons_self _ _)
  have haltsp : ∀ a ∈ alt.alt_defs, a.status = TaskStatus.pending := fun a ha =>
    hall a (by rw [hchain]; exact List.mem_cons_of_mem _ ha)
  obtain ⟨A, B, hAB⟩ := List.append_of_mem htcm
  have hidsN : (s.tasks.map MTask.id).Nodup := tasks_id_nodup hN
  have hABids : (A.map MTask.id ++ tid :: B.map MTask.id).Nodup := by
    have h2 : s.tasks.map MTask.id = A.map MTask.id ++ tid :: B.map MTask.id := by
      rw [hAB, List.map_append, List.map_cons, hid]
    rw [← h2]
    exact hidsN
  obtain ⟨_, hnTB, hdATB⟩ := List.nodup_append.mp hABids
  have hAne : ∀ a ∈ A, a.id ≠ tid := by
    intro a ha heq
    exact hdATB (heq ▸ List.mem_map_of_mem MTask.id ha) (List.mem_cons_self _ _)
  have hBne : ∀ b ∈ B, b.id ≠ tid := by
    intro b hb heq
    exact (List.nodup_cons.mp hnTB).1 (heq ▸ List.mem_map_of_mem MTask.id hb)
  have hcontrib : tc.id :: (if tc.status == TaskStatus.failed then []
      else tc.alt_defs.map MTask.id)
      = tid :: alt.id :: alt.alt_defs.map MTask.id := by
    rw [hid, if_neg (by simp [hfailF]), hchain, List.map_cons]
  have hw : w_ids s
      = A.flatMap (fun t => t.id :: (if t.status == TaskStatus.failed then []
          else t.alt_defs.map MTask.id))
        ++ ((tid :: alt.id :: alt.alt_defs.map MTask.id)
          ++ B.flatMap (fun t => t.id :: (if t.status == TaskStatus.failed then []
            else t.alt_defs.map MTask.id))) := by
    unfold w_ids
    rw [hAB, List.flatMap_append, List.flatMap_cons, hcontrib]
  have h1 : ({ set_status s tid TaskStatus.failed with
      failed_res := (set_status s tid TaskStatus.failed).failed_res ++ [tid] } :
        MState).tasks
      = A ++ (tc.with_status TaskStatus.failed :: B) := by
    show s.tasks.map (fun t => if t.id == tid then t.with_status TaskStatus.failed else t)
      = _
    rw [hAB, List.map_append, List.map_cons,
      map_congr_mem (fun a ha => if_neg (by simp [hAne a ha])),
      if_pos (by simp [hid]),
      map_congr_mem (fun b hb => if_neg (by simp [hBne b hb]))]
  have hcontrib2 : (tc.with_status TaskStatus.failed).id
      :: (if (tc.with_status TaskStatus.failed).status == TaskStatus.failed then []
        else (tc.with_status TaskStatus.failed).alt_defs.map MTask.id)
      = [tid] := by
    rw [MTask.with_status_id, hid, if_pos (by simp [MTask.with_status_status])]
  have hwFR : w_ids { set_status s tid TaskStatus.failed with
      failed_res := (set_status s tid TaskStatus.failed).failed_res ++ [tid] }
      = A.flatMap (fun t => t.id :: (if t.status == TaskStatus.failed then []
          else t.alt_defs.map MTask.id))
        ++ ([tid]
          ++ B.flatMap (fun t => t.id :: (if t.status == TaskStatus.failed then []
            else t.alt_defs.map MTask.id))) := by
    unfold w_ids
    rw [h1, List.flatMap_append, List.flatMap_cons, hcontrib2]
  have hNw := hN
  rw [hw] at hNw
  obtain ⟨hnX, hnWZ, hdXWZ⟩ := List.nodup_append.mp hNw
  obtain ⟨hnW, hnZ, hdWZ⟩ := List.nodup_append.mp hnWZ
  obtain ⟨htidni, hnW2⟩ := List.nodup_cons.mp hnW
  have hdisj : ∀ i ∈ alt.id :: alt.alt_defs.map MTask.id,
      i ∉ w_ids { set_status s tid TaskStatus.failed with
        failed_res := (set_status s tid TaskStatus.failed).failed_res ++ [tid] } := by
    intro i hi hm
    rw [hwFR] at hm
    rcases List.mem_append.mp hm with hX | hTZ
    · exact hdXWZ hX (List.mem_append_left _ (List.mem_cons_of_mem tid hi))
    · rcases List.mem_append.mp hTZ with h2 | hZ
      · have : i = tid := by simpa using h2
        exact htidni (this ▸ hi)
      · exact hdWZ (List.mem_cons_of_mem tid hi) hZ
  obtain ⟨hIB, hcdB, hedB, hfpB, htrB⟩ := tm_add_fresh_preserves
    { set_status s tid TaskStatus.failed with
      failed_res := (set_status s tid TaskStatus.failed).failed_res ++ [tid] }
    alt hIF hpendalt haltsp hnW2 hdisj
  refine ⟨hIB, fun x => (hcdB x).trans (hcdF x), ?_, htrB.trans rfl, ?_, ?_⟩
  · intro e he
    exact hedB e he
  · intro g hg hh
    have h2 := halted_pres_of_find_ite hfxF g hg hh
    exact halted_transfer (fun t hft => ⟨t, hfpB g t hft, Or.inl rfl⟩) h2
  · intro y hy hr
    have h2 := ready_pres_of_find_ite hfxF (fun x hx => by rw [hcdF x]; exact hx) y hy hr
    exact ready_transfer (fun x hx => by rw [hcdB x]; exact hx)
      (fun t hft => ⟨t, hfpB y t hft, rfl, fun d hd => hd⟩) h2

/-- One `execute_tasks` loop-body iteration on a ready task preserves
the invariant, only extends the edge set and the trace, and never makes
a FAILED/SKIPPED task runnable again or un-readies another ready
task. -/
theorem process_task_preserves (oracle : Nat → Decision) (s : MState) (tid : String)
    (tc : MTask) (hInv : Inv s) (hfind : find_task s tid = some tc)
    (hpend : tc.status = TaskStatus.pending) (hdm : deps_met s tc = true) :
    Inv (process_task oracle s tid) ∧
    (∀ e ∈ s.edges, e ∈ (process_task oracle s tid).edges) ∧
    (process_task oracle s tid).trace = s.trace ++ [tid] ∧
    (∀ g, g ≠ tid → halted s g = true → halted (process_task oracle s tid) g = true) ∧
    (∀ y, y ≠ tid → ready_id s y = true → ready_id (process_task oracle s tid) y = true) := by
  have hfind' : find_task { s with trace := s.trace ++ [tid], k := s.k + 1 } tid
      = some tc := hfind
  have hInvT : Inv { s with trace := s.trace ++ [tid], k := s.k + 1 } := hInv
  have hdm' : deps_met { s with trace := s.trace ++ [tid], k := s.k + 1 } tc = true := hdm
  cases hd : oracle s.k with
  | no_agent =>
    simp only [process_task, hd, hfind']
    obtain ⟨hIS, hcdS, hfxS⟩ := nc_record_preserves
      { s with trace := s.trace ++ [tid], k := s.k + 1 }
      { set_status { s with trace := s.trace ++ [tid], k := s.k + 1 }
          tid TaskStatus.skipped with
        skipped_res := (set_status { s with trace := s.trace ++ [tid], k := s.k + 1 }
          tid TaskStatus.skipped).skipped_res ++ [tid] }
      tid tc TaskStatus.skipped hInvT hfind'
      (by rw [hpend]; decide) (by rw [hpend]; decide) (by decide) (by decide) rfl rfl
    refine ⟨hIS, fun e he => he, rfl, ?_, ?_⟩
    · intro g hg hh
      exact halted_pres_of_find_ite hfxS g hg hh
    · intro y hy hr
      exact ready_pres_of_find_ite hfxS (fun x hx => by rw [hcdS x]; exact hx) y hy hr
  | exec_completed =>
    simp only [process_task, hd, hfind']
    obtain ⟨hIB, hcdB, hedB, htrB, hhB, hrB⟩ := handle_completion_preserves
      { s with trace := s.trace ++ [tid], k := s.k + 1 } tid tc hInvT hfind' hpend hdm'
    refine ⟨hIB, ?_, ?_, ?_, ?_⟩
    · intro e he
      rw [hedB]
      exact he
    · rw [htrB]
    · intro g hg hh
      exact hhB g hg hh
    · intro y hy hr
      exact hrB y hy hr
  | exec_failed =>
    simp only [process_task, hd, hfind']
    by_cases hs1 : tc.failure_strategy = "retry"
    · obtain ⟨hIB, hcdB, hedB, htrB, hhB, hrB⟩ := handle_failure_retry_preserves
        { s with trace := s.trace ++ [tid], k := s.k + 1 } tid tc hInvT hfind' hpend hdm' hs1
      refine ⟨hIB, ?_, ?_, ?_, ?_⟩
      · intro e he
        rw [hedB]
        exact he
      · rw [htrB]
      · intro g hg hh
        exact hhB g hg hh
      · intro y hy hr
        exact hrB y hy hr
    · by_cases hs2 : tc.failure_strategy = "skip_dependent"
      · obtain ⟨hIB, hcdB, hedB, htrB, _, _, _, _, hhB, hrB⟩ :=
          handle_failure_skip_preserves
            { s with trace := s.trace ++ [tid], k := s.k + 1 } tid tc
            hInvT hfind' hpend hdm' hs2
        refine ⟨hIB, ?_, ?_, ?_, ?_⟩
        · intro e he
          rw [hedB]
          exact he
        · rw [htrB]
        · intro g hg hh
          exact hhB g hg hh
        · intro y hy hr
          exact hrB y hy hr
      · by_cases hs3 : tc.failure_strategy = "alternate"
        · cases halt : tc.alternate_task with
          | some alt =>
            obtain ⟨hIB, hcdB, hedB, htrB, hhB, hrB⟩ := handle_failure_alt_preserves
              { s with trace := s.trace ++ [tid], k := s.k + 1 } tid tc alt
              hInvT hfind' hpend hdm' hs3 halt
            refine ⟨hIB, ?_, ?_, ?_, ?_⟩
            · intro e he
              exact hedB e he
            · rw [htrB]
            · intro g hg hh
              exact hhB g hg hh
            · intro y hy hr
              exact hrB y hy hr
          | none =>
            have hid : tc.id = tid := find_task_some_id hfind
            rw [handle_failure_eq_alt_none _ tc hs3 halt, hid]
            obtain ⟨hIS, hcdS, hhS, hrS⟩ := failed_only_preserves
              { s with trace := s.trace ++ [tid], k := s.k + 1 } tid tc
              hInvT hfind' hpend hdm'
            refine ⟨hIS, fun e he => he, rfl, ?_, ?_⟩
            · intro g hg hh
              exact hhS g hg hh
            · intro y hy hr
              exact hrS y hy hr
        · have hid : tc.id = tid := find_task_some_id hfind
          have hb1 : (tc.failure_strategy == "retry") = false := by
            rw [beq_eq_false_iff_ne]
            exact hs1
          have hb2 : (tc.failure_strategy == "skip_dependent") = false := by
            rw [beq_eq_false_iff_ne]
            exact hs2
          have hb3 : (tc.failure_strategy == "alternate") = false := by
            rw [beq_eq_false_iff_ne]
            exact hs3
          rw [handle_failure_eq_other _ tc hb1 hb2 hb3, hid]
          obtain ⟨hIS, hcdS, hhS, hrS⟩ := failed_only_preserves
            { s with trace := s.trace ++ [tid], k := s.k + 1 } tid tc
            hInvT hfind' hpend hdm'
          refine ⟨hIS, fun e he => he, rfl, ?_, ?_⟩
          · intro g hg hh
            exact hhS g hg hh
          · intro y hy hr
            exact hrS y hy hr

theorem get_ready_aux_mem (s : MState) (limit : Nat) :
    ∀ (l acc : List MTask) (t : MTask),
    t ∈ get_ready_aux s limit l acc → t ∈ acc ∨ (t ∈ l ∧ ready_task s t = true) := by
  intro l
  induction l with
  | nil =>
    intro acc t h
    exact Or.inl h
  | cons hd rest ih =>
    intro acc t h
    simp only [get_ready_aux] at h
    split at h
    · rename_i hr
      split at h
      · rcases List.mem_append.mp h with h1 | h1
        · exact Or.inl h1
        · have h2 : t = hd := by simpa using h1
          exact Or.inr ⟨h2 ▸ List.mem_cons_self hd rest, h2 ▸ hr⟩
      · rcases ih _ t h with h1 | ⟨h2, h3⟩
        · rcases List.mem_append.mp h1 with h4 | h4
          · exact Or.inl h4
          · have h5 : t = hd := by simpa using h4
            exact Or.inr ⟨h5 ▸ List.mem_cons_self hd rest, h5 ▸ hr⟩
        · exact Or.inr ⟨List.mem_cons_of_mem hd h2, h3⟩
    · rcases ih _ t h with h1 | ⟨h2, h3⟩
      · exact Or.inl h1
      · exact Or.inr ⟨List.mem_cons_of_mem hd h2, h3⟩

theorem get_ready_aux_sublist (s : MState) (limit : Nat) :
    ∀ (l acc : List MTask),
    ∃ r, get_ready_aux s limit l acc = acc ++ r ∧ r.Sublist l := by
  intro l
  induction l with
  | nil =>
    intro acc
    exact ⟨[], by simp [get_ready_aux], List.nil_sublist _⟩
  | cons hd rest ih =>
    intro acc
    simp only [get_ready_aux]
    split
    · split
      · exact ⟨[hd], rfl, (List.nil_sublist rest).cons₂ hd⟩
      · obtain ⟨r, hr1, hr2⟩ := ih (acc ++ [hd])
        refine ⟨hd :: r, ?_, hr2.cons₂ hd⟩
        rw [hr1, List.append_assoc]
        rfl
    · obtain ⟨r, hr1, hr2⟩ := ih acc
      exact ⟨r, hr1, hr2.cons hd⟩

/-- Members of the collected ready set are ready by id, and their ids
are mutually distinct (the set is collected in one pass over the
duplicate-free task registry). -/
theorem get_ready_tasks_spec (s : MState) (limit : Nat) (hN : (w_ids s).Nodup) :
    (∀ t ∈ get_ready_tasks s limit, ready_id s t.id = true) ∧
    ((get_ready_tasks s limit).map MTask.id).Nodup := by
  constructor
  · intro t ht
    rcases get_ready_aux_mem s limit s.tasks [] t ht with h1 | ⟨h2, h3⟩
    · exact absurd h1 (List.not_mem_nil t)
    · unfold ready_id
      rw [find_task_of_mem hN h2]
      exact h3
  · obtain ⟨r, hr1, hr2⟩ := get_ready_aux_sublist s limit s.tasks []
    have heq : get_ready_tasks s limit = r := by
      unfold get_ready_tasks
      rw [hr1]
      rfl
    rw [heq]
    exact (hr2.map MTask.id).nodup (tasks_id_nodup hN)

/-- The inner `for` loop of `execute_tasks` over a tick's ready set
preserves the invariant, only extends edges, traces exactly the
processed ids, and keeps FAILED/SKIPPED tasks out of the running. -/
theorem process_list_preserves (oracle : Nat → Decision) :
    ∀ (R : List String) (s : MState),
    Inv s → (∀ y ∈ R, ready_id s y = true) → R.Nodup →
    Inv (process_list oracle s R) ∧
    (∀ e ∈ s.edges, e ∈ (process_list oracle s R).edges) ∧
    (∃ app, (process_list oracle s R).trace = s.trace ++ app ∧ ∀ y ∈ app, y ∈ R) ∧
    (∀ g, g ∉ R → halted s g = true → halted (process_list oracle s R) g = true) := by
  intro R
  induction R with
  | nil =>
    intro s hInv _ _
    exact ⟨hInv, fun e he => he,
      ⟨[], by simp [process_list], fun y hy => absurd hy (List.not_mem_nil y)⟩,
      fun g _ hh => hh⟩
  | cons tid R ih =>
    intro s hInv hready hnd
    obtain ⟨tc, hfind, hpend, hdm⟩ := ready_id_elim (hready tid (List.mem_cons_self tid R))
    obtain ⟨hI1, hed1, htr1, hh1, hr1⟩ :=
      process_task_preserves oracle s tid tc hInv hfind hpend hdm
    have hstep : process_list oracle s (tid :: R)
        = process_list oracle (process_task oracle s tid) R := rfl
    rw [hstep]
    have hndR := List.nodup_cons.mp hnd
    have hreadyR : ∀ y ∈ R, ready_id (process_task oracle s tid) y = true := by
      intro y hy
      have hyne : y ≠ tid := fun h => hndR.1 (h ▸ hy)
      exact hr1 y hyne (hready y (List.mem_cons_of_mem tid hy))
    obtain ⟨hI2, hed2, ⟨app, htr2, happ⟩, hh2⟩ :=
      ih (process_task oracle s tid) hI1 hreadyR hndR.2
    refine ⟨hI2, fun e he => hed2 e (hed1 e he), ⟨tid :: app, ?_, ?_⟩, ?_⟩
    · rw [htr2, htr1, List.append_assoc]
      rfl
    · intro y hy
      rcases List.mem_cons.mp hy with h1 | h1
      · exact h1 ▸ List.mem_cons_self tid R
      · exact List.mem_cons_of_mem tid (happ y h1)
    · intro g hg hh
      have hgne : g ≠ tid := fun h => hg (h ▸ List.mem_cons_self tid R)
      have hgnR : g ∉ R := fun h => hg (List.mem_cons_of_mem tid h)
      exact hh2 g hgnR (hh1 g hgne hh)

/-- Trace safety of the whole `while True` loop: starting from an
invariant state in which task `f` is FAILED or SKIPPED, `f` stays so,
and no transitive graph descendant of `f` is ever dispatched. -/
theorem run_loop_safe (oracle : Nat → Decision) (mp : Nat) :
    ∀ (fuel : Nat) (s : MState) (f : String),
    Inv s → halted s f = true →
    Inv (run_loop oracle mp fuel s) ∧
    halted (run_loop oracle mp fuel s) f = true ∧
    (∀ e ∈ s.edges, e ∈ (run_loop oracle mp fuel s).edges) ∧
    (∃ app, (run_loop oracle mp fuel s).trace = s.trace ++ app ∧
      ∀ y ∈ app, Reach s.edges f y → False) := by
  intro fuel
  induction fuel with
  | zero =>
    intro s f hInv hh
    exact ⟨hInv, hh, fun e he => he,
      ⟨[], by simp [run_loop], fun y hy _ => absurd hy (List.not_mem_nil y)⟩⟩
  | succ fuel ih =>
    intro s f hInv hh
    by_cases hR : ((get_ready_tasks s mp).map MTask.id).isEmpty = true
    · have hrun : run_loop oracle mp (fuel + 1) s = s := by
        simp only [run_loop]
        rw [if_pos hR]
      rw [hrun]
      exact ⟨hInv, hh, fun e he => he,
        ⟨[], by simp, fun y hy _ => absurd hy (List.not_mem_nil y)⟩⟩
    · have hrun : run_loop oracle mp (fuel + 1) s
          = run_loop oracle mp fuel
            (process_list oracle s ((get_ready_tasks s mp).map MTask.id)) := by
        simp only [run_loop]
        rw [if_neg hR]
      rw [hrun]
      obtain ⟨hrdy, hndp⟩ := get_ready_tasks_spec s mp hInv.2.2.2.2
      have hready : ∀ y ∈ (get_ready_tasks s mp).map MTask.id, ready_id s y = true := by
        intro y hy
        obtain ⟨t, ht, heq⟩ := List.mem_map.mp hy
        exact heq ▸ hrdy t ht
      obtain ⟨hI1, hed1, ⟨app1, htr1, happ1⟩, hh1res⟩ :=
        process_list_preserves oracle ((get_ready_tasks s mp).map MTask.id) s
          hInv hready hndp
      have hfnotin : f ∉ (get_ready_tasks s mp).map MTask.id := by
        intro hmem
        have h2 := ready_not_halted (hready f hmem)
        rw [h2] at hh
        exact absurd hh (by simp)
      have hh1 : halted (process_list oracle s ((get_ready_tasks s mp).map MTask.id)) f
          = true := hh1res f hfnotin hh
      obtain ⟨hI2, hh2, hed2, ⟨app2, htr2, happ2⟩⟩ :=
        ih (process_list oracle s ((get_ready_tasks s mp).map MTask.id)) f hI1 hh1
      refine ⟨hI2, hh2, fun e he => hed2 e (hed1 e he), ⟨app1 ++ app2, ?_, ?_⟩⟩
      · rw [htr2, htr1, List.append_assoc]
      · intro y hy hreach
        rcases List.mem_append.mp hy with h1 | h1
        · obtain ⟨hTs, hEs, hCs, _, _⟩ := hInv
          have hcdf : completed_dep s f = false := halted_not_completed hh
          have hblock := (reach_blocked hTs hEs hCs hreach hcdf).2
          have hready_y := hready y (happ1 y h1)
          rw [hready_y] at hblock
          exact absurd hblock (by simp)
        · exact happ2 y h1 (Reach.mono hed1 hreach)

/-- C2 corrected: when a ready task whose `failure_strategy` is
`skip_dependent` fails during `execute_tasks`, the manager marks the
task FAILED and marks exactly its DIRECT graph successors SKIPPED
(recording them in the skipped results) — transitive descendants
further down keep their status — and, in any reachable manager state
(graph soundness plus uuid-freshness of ids, captured by `Inv`), no
transitive descendant of the failed task is ever scheduled by the rest
of the run: every id dispatched afterwards is unreachable from the
failed task in the dependency graph at failure time. -/
theorem c2_amended_direct_skip_no_descendant_scheduled
    (oracle : Nat → Decision) (s : MState) (tid : String) (tc : MTask)
    (mp fuel : Nat)
    (hInv : Inv s) (hfind : find_task s tid = some tc)
    (hpend : tc.status = TaskStatus.pending) (hdm : deps_met s tc = true)
    (hstrat : tc.failure_strategy = "skip_dependent")
    (hor : oracle s.k = Decision.exec_failed) :
    (∃ t1, find_task (process_task oracle s tid) tid = some t1 ∧
      t1.status = TaskStatus.failed) ∧
    (∀ u ∈ successors s tid, ∃ t2,
      find_task (process_task oracle s tid) u = some t2 ∧
      t2.status = TaskStatus.skipped) ∧
    (process_task oracle s tid).skipped_res = s.skipped_res ++ successors s tid ∧
    (process_task oracle s tid).failed_res = s.failed_res ++ [tid] ∧
    (∃ app, (run_loop oracle mp fuel (process_task oracle s tid)).trace
        = (process_task oracle s tid).trace ++ app ∧
      ∀ y ∈ app, Reach s.edges tid y → False) := by
  have hfind' : find_task { s with trace := s.trace ++ [tid], k := s.k + 1 } tid
      = some tc := hfind
  have hInvT : Inv { s with trace := s.trace ++ [tid], k := s.k + 1 } := hInv
  have hdm' : deps_met { s with trace := s.trace ++ [tid], k := s.k + 1 } tc = true := hdm
  have heq : process_task oracle s tid
      = handle_failure { s with trace := s.trace ++ [tid], k := s.k + 1 } tc := by
    simp only [process_task, hor, hfind']
  obtain ⟨hIB, hcdB, hedB, htrB, hskB, hflB, ht1, hsucc, hhB, _⟩ :=
    handle_failure_skip_preserves { s with trace := s.trace ++ [tid], k := s.k + 1 }
      tid tc hInvT hfind' hpend hdm' hstrat
  rw [heq]
  obtain ⟨t1, hft1, hst1⟩ := ht1
  have hhalted : halted
      (handle_failure { s with trace := s.trace ++ [tid], k := s.k + 1 } tc) tid
      = true := by
    unfold halted
    rw [hft1]
    show (t1.status == TaskStatus.failed || t1.status == TaskStatus.skipped) = true
    rw [hst1]
    rfl
  obtain ⟨_, _, _, ⟨app, htrR, hsafe⟩⟩ := run_loop_safe oracle mp fuel
    (handle_failure { s with trace := s.trace ++ [tid], k := s.k + 1 } tc) tid
    hIB hhalted
  refine ⟨⟨t1, hft1, hst1⟩, hsucc, hskB, hflB, ⟨app, htrR, ?_⟩⟩
  intro y hy hreach
  refine hsafe y hy (Reach.mono (fun e he => ?_) hreach)
  rw [hedB]
  exact he

/-- C2 witness: the chain a ← b ← c with every strategy
`skip_dependent`; `a` is ready in `chain_state` and fails; the theorem
yields b SKIPPED, a FAILED, and a descendant-free continuation trace. -/
theorem c2_amended_direct_skip_no_descendant_scheduled_witness :
    (Inv chain_state ∧
    find_task chain_state "a"
      = some (MTask.mk "a" [] TaskStatus.pending "skip_dependent" 0 none) ∧
    (MTask.mk "a" [] TaskStatus.pending "skip_dependent" 0 none).status
      = TaskStatus.pending ∧
    deps_met chain_state (MTask.mk "a" [] TaskStatus.pending "skip_dependent" 0 none)
      = true ∧
    (MTask.mk "a" [] TaskStatus.pending "skip_dependent" 0
      none).failure_strategy = "skip_dependent" ∧
    (fun _ : Nat => Decision.exec_failed) chain_state.k = Decision.exec_failed) ∧
    ((∃ t1, find_task (process_task (fun _ => Decision.exec_failed) chain_state "a") "a"
        = some t1 ∧ t1.status = TaskStatus.failed) ∧
    (∀ u ∈ successors chain_state "a", ∃ t2,
      find_task (process_task (fun _ => Decision.exec_failed) chain_state "a") u
        = some t2 ∧ t2.status = TaskStatus.skipped) ∧
    (process_task (fun _ => Decision.exec_failed) chain_state "a").skipped_res
      = chain_state.skipped_res ++ successors chain_state "a" ∧
    (process_task (fun _ => Decision.exec_failed) chain_state "a").failed_res
      = chain_state.failed_res ++ ["a"] ∧
    (∃ app, (run_loop (fun _ => Decision.exec_failed) 10 4
        (process_task (fun _ => Decision.exec_failed) chain_state "a")).trace
        = (process_task (fun _ => Decision.exec_failed) chain_state "a").trace ++ app ∧
      ∀ y ∈ app, Reach chain_state.edges "a" y → False)) :=
  ⟨⟨by unfold Inv; decide, rfl, rfl, rfl, rfl, rfl⟩,
    c2_amended_direct_skip_no_descendant_scheduled
      (fun _ => Decision.exec_failed) chain_state "a"
      (MTask.mk "a" [] TaskStatus.pending "skip_dependent" 0 none) 10 4
      (by unfold Inv; decide) rfl rfl rfl rfl rfl⟩

end GraphFusionAI
